import Mathlib

/-!
Shallow embedding of the htcondor-analyzer core in Lean 4, together with
theorems settling the specification claims.

Components modelled from the C++ sources:
* `src/LineEditor.cpp` — the line patch engine (`Read`, `Write`, `Patch`,
  `Line`, `LineCount`), with text represented as `List Char` per line
  (one `char` per byte of `std::string`).
* `src/db.cpp` — the storage engine (`Database::Transact`,
  `SetTransactionError`, `TemporaryErrorCode`, `RandomSleep`).  SQLite
  itself is modelled by explicit step-outcome oracles and an explicit
  store state.
* `src/db-file.cpp` — the finding ledger (`FileIdentification`,
  `FileIdentificationDatabase::Impl`: `Resolve`, `Record`,
  `MarkForProcessing`, `MarkAsProcessed`, `RunCommitTransaction`,
  `Commit`).
* `src/db-report.cpp` — the report query engine (`Report`, `Carets`).
* `src/file.cpp` — `ResolvePath` (realpath), modelled as an oracle
  `String → Option String`; `lstat` is modelled as an oracle
  `String → Option (Int × Nat)` returning (mtime, size).
-/

/-! ## Generic list helpers used by the embedding -/

/-- Lexicographic comparison of char lists (models byte-wise `memcmp`
ordering used by SQLite's default BINARY collation on TEXT columns). -/
def charListLt : List Char → List Char → Bool
  | [], [] => false
  | [], _ :: _ => true
  | _ :: _, [] => false
  | a :: as, b :: bs =>
    if a < b then true else if b < a then false else charListLt as bs

/-- String comparison via `charListLt` on the character lists. -/
def strLt (a b : String) : Bool := charListLt a.toList b.toList

/-- Insert a string into a sorted, duplicate-free list, keeping it sorted
and duplicate-free.  Used to model `SELECT DISTINCT ... ORDER BY` and
`std::map` key iteration order. -/
def insertSorted (x : String) : List String → List String
  | [] => [x]
  | y :: ys =>
    if x = y then y :: ys
    else if strLt x y then x :: y :: ys
    else y :: insertSorted x ys

/-- Sort a list of strings and remove duplicates. -/
def sortDedup (l : List String) : List String := l.foldr insertSorted []

/-! ## Line Patch Engine (`src/LineEditor.cpp`)

The in-memory buffer `std::vector<std::string> Lines` is modelled as
`List (List Char)`. -/

/-- One `std::getline` loop iteration flattened into a char-by-char scan:
`acc` is the partial line read so far (without its newline).  When the
input ends while a partial line is pending, `LineEditor::Read` observes
`in.eof()` *before* pushing the line, so the partial line is discarded. -/
def readLinesAux (acc : List Char) : List Char → List (List Char)
  | [] => []
  | c :: cs =>
    if c = '\n' then acc :: readLinesAux [] cs
    else readLinesAux (acc ++ [c]) cs

/-- Model of `LineEditor::Read` on file content `cs` (success path):
the list of stored lines. -/
def readLines (cs : List Char) : List (List Char) := readLinesAux [] cs

/-- Serialization performed by `LineEditor::Write`: each stored line is
emitted followed by `'\n'`. -/
def serializeLines (ls : List (List Char)) : List Char :=
  (ls.map (fun l => l ++ ['\n'])).flatten

/-- Model of `LineEditor::Patch(Line, Column, Old, New)`.
Returns `some` of the updated buffer on success, `none` on failure (the
C++ code performs no mutation on failure, which the `Option` captures).
Mirrors the source checks in order:
`Line == 0 || Line > LineCount()`, then `Column == 0 || Column > ToPatch.size()`,
then `Old.size() >= ToPatch.size() - Offset || !std::equal(...)`. -/
def Patch (lines : List (List Char)) (lineNo col : Nat)
    (oldText newText : List Char) : Option (List (List Char)) :=
  if lineNo = 0 ∨ lineNo > lines.length then none
  else
    let toPatch := lines.getD (lineNo - 1) []
    if col = 0 ∨ col > toPatch.length then none
    else
      let offset := col - 1
      if oldText.length ≥ toPatch.length - offset
          ∨ ¬ oldText.isPrefixOf (toPatch.drop offset) then none
      else
        some (lines.set (lineNo - 1)
          (toPatch.take offset ++ newText ++ toPatch.drop (offset + oldText.length)))

/-- Model of `LineEditor::Write(Path)`.  The filesystem is a partial map
from path to content.  Failure injection: `openOk` is whether opening the
temporary stream succeeds; `failAt = some k` means the write (or final
flush on `close`) fails after `k` complete lines were written; `renameOk`
is whether `rename` succeeds.  Returns the updated filesystem and the
boolean result. -/
def WriteModel (fs : String → Option (List Char)) (path : String)
    (lines : List (List Char)) (openOk : Bool) (failAt : Option Nat)
    (renameOk : Bool) : (String → Option (List Char)) × Bool :=
  let tmp := path ++ ".new"
  if ¬ openOk then (fs, false)
  else
    match failAt with
    | some k =>
      -- a write failed: the loop breaks, `close` runs, `!out` holds,
      -- `unlink(Tmp)` removes the partially written temporary file.
      let fs1 := fun q => if q = tmp then some (serializeLines (lines.take k)) else fs q
      (fun q => if q = tmp then none else fs1 q, false)
    | none =>
      let fs1 := fun q => if q = tmp then some (serializeLines lines) else fs q
      if renameOk then
        -- `rename(Tmp, Path)` atomically replaces the original.
        (fun q => if q = path then some (serializeLines lines)
                  else if q = tmp then none else fs q, true)
      else
        (fun q => if q = tmp then none else fs1 q, false)

/-! ## `Carets` (`src/db-report.cpp`) -/

/-- Model of `Carets(Text, Column, Width)`: every character strictly
before `Column` (1-based) becomes a space, except tabs which are kept;
then `Width` caret characters. -/
def Carets (Text : List Char) (Column Width : Nat) : List Char :=
  if Column = 0 then []
  else
    ((Text.take (min (Column - 1) Text.length)).map
      (fun ch => if ch = '\t' then '\t' else ' '))
      ++ List.replicate Width '^'

/-! ## Storage Engine (`src/db.cpp`)

`Database::Transact` runs a unit of work `runner` inside a transaction,
with a bounded retry loop.  SQLite's behaviour at each `BEGIN`, `COMMIT`
and `ROLLBACK` step is supplied by a per-attempt oracle.  The store state
`σ` is threaded explicitly: the state passed to a new attempt is the
state at `BEGIN` (a rollback restores it), and a committed attempt makes
the runner's final state the visible one. -/

/-- The four-way transaction outcome (`TransactionResult::Enum`). -/
inductive TransactionResult
  | COMMIT
  | ROLLBACK
  | RETRY
  | ERROR
deriving DecidableEq, Repr

/-- Outcome of a single `sqlite3_step`-style operation as seen by the
error-handling code: `done` = success, `busy` = failure with
`SQLITE_BUSY`/`SQLITE_LOCKED`, `fail` = failure with any other code. -/
inductive StepOutcome
  | done
  | busy
  | fail
deriving DecidableEq, Repr

/-- `TemporaryErrorCode(code)` from `src/db.cpp`:
`code == SQLITE_BUSY || code == SQLITE_LOCKED` (codes 5 and 6). -/
def TemporaryErrorCode (code : Nat) : Bool := code == 5 || code == 6

/-- `Database::SetError(Context)`: the message stored is the SQLite
error text followed by `" [" Context "]"`. -/
def SetErrorMessage (errText context : String) : String :=
  errText ++ " [" ++ context ++ "]"

/-- `Database::SetTransactionError(Context)`: records the error message
and classifies the current SQLite error code as `RETRY` (busy/locked) or
`ERROR` (anything else). -/
def SetTransactionError (errText context : String) (code : Nat) :
    TransactionResult × String :=
  (if TemporaryErrorCode code then TransactionResult.RETRY
   else TransactionResult.ERROR,
   SetErrorMessage errText context)

/-- Classification applied by callers of `SetTransactionError` when a
step fails, expressed on `StepOutcome`: busy/locked maps to `RETRY`,
any other failure to `ERROR`. -/
def stepClass : StepOutcome → TransactionResult
  | .busy => .RETRY
  | _ => .ERROR

/-- Per-attempt oracle for the three statements `Transact` itself steps:
the outcome of `BEGIN`, the outcome of `COMMIT`, and whether `ROLLBACK`
succeeds. -/
structure AttemptOracle where
  beginOutcome : StepOutcome
  commitOutcome : StepOutcome
  rollbackOk : Bool
deriving DecidableEq, Repr

/-- Observable store actions of one `Transact` call, in order, used to
state properties about sleeps, attempt counts and the final action.
`sleep ms` records the argument passed to `RandomSleep` (the mean of the
randomized backoff duration in milliseconds). -/
inductive DBAction
  | sleep (ms : Nat)
  | stepBegin
  | stepCommit
  | stepRollback
  | runUnit
deriving DecidableEq, Repr

/-- Result of a `Transact` call: outcome, visible store state, action
trace, and the error message set by `Transact` itself (`none` when the
message was left to the unit of work or no error occurred). -/
structure TransactOutcome (σ : Type) where
  result : TransactionResult
  state : σ
  trace : List DBAction
  message : Option String
deriving Repr

/-- The sampled duration of `RandomSleep(ms)` in microseconds, given the
two `rand()` draws: `(rand() % (ms * 1000)) + (rand() % (ms * 1000))`. -/
def RandomSleepDuration (ms r1 r2 : Nat) : Nat :=
  r1 % (ms * 1000) + r2 % (ms * 1000)

/-- `MaxRetries` from `Database::Transact`. -/
def MaxRetries : Nat := 6

/-- The retry loop of `Database::Transact`.  `retries` is the loop
counter (`Retries` in the source); `fuel` is the number of remaining
iterations (`MaxRetries - Retries`).  The runner is indexed by the
attempt number so that successive attempts may observe different store
behaviour. -/
def transactGo {σ : Type} (runner : Nat → σ → TransactionResult × σ)
    (env : Nat → AttemptOracle) (s : σ) :
    Nat → Nat → TransactOutcome σ
  | _, 0 => ⟨.ERROR, s, [], some "could not complete Transact"⟩
  | retries, fuel + 1 =>
    let pre : List DBAction :=
      if retries = 0 then [] else [.sleep (100 * 2 ^ (retries - 1))]
    let o := env retries
    match o.beginOutcome with
    | .busy =>
      -- BEGIN failed with a temporary error code: `continue`.
      let out := transactGo runner env s (retries + 1) fuel
      ⟨out.result, out.state, pre ++ [.stepBegin] ++ out.trace, out.message⟩
    | .fail =>
      ⟨.ERROR, s, pre ++ [.stepBegin], some "Transact BEGIN"⟩
    | .done =>
      match runner retries s with
      | (.COMMIT, s') =>
        match o.commitOutcome with
        | .done => ⟨.COMMIT, s', pre ++ [.stepBegin, .runUnit, .stepCommit], none⟩
        | _ =>
          -- COMMIT failed (any error code): roll back and retry.
          if o.rollbackOk then
            let out := transactGo runner env s (retries + 1) fuel
            ⟨out.result, out.state,
             pre ++ [.stepBegin, .runUnit, .stepCommit, .stepRollback] ++ out.trace,
             out.message⟩
          else
            ⟨.ERROR, s, pre ++ [.stepBegin, .runUnit, .stepCommit, .stepRollback],
             some "Transact ROLLBACK"⟩
      | (.ROLLBACK, _) =>
        if o.rollbackOk then
          ⟨.ROLLBACK, s, pre ++ [.stepBegin, .runUnit, .stepRollback], none⟩
        else
          ⟨.ERROR, s, pre ++ [.stepBegin, .runUnit, .stepRollback],
           some "Transact ROLLBACK"⟩
      | (.ERROR, _) =>
        -- rollback, ignoring its result, to preserve the original error.
        ⟨.ERROR, s, pre ++ [.stepBegin, .runUnit, .stepRollback], none⟩
      | (.RETRY, _) =>
        if o.rollbackOk then
          let out := transactGo runner env s (retries + 1) fuel
          ⟨out.result, out.state,
           pre ++ [.stepBegin, .runUnit, .stepRollback] ++ out.trace,
           out.message⟩
        else
          ⟨.ERROR, s, pre ++ [.stepBegin, .runUnit, .stepRollback],
           some "Transact ROLLBACK"⟩

/-- Model of `Database::Transact`. -/
def Transact {σ : Type} (runner : Nat → σ → TransactionResult × σ)
    (env : Nat → AttemptOracle) (s : σ) : TransactOutcome σ :=
  transactGo runner env s 0 MaxRetries

/-- The `ms` argument of a `sleep` action, if any. -/
def sleepOf : DBAction → Option Nat
  | .sleep ms => some ms
  | _ => none

/-! ## File Identity Resolver (`FileIdentification`, `src/db-file.cpp`)

The filesystem is modelled by two fixed oracles:
`fsR : String → Option String` for `ResolvePath` (realpath) and
`fsM : String → Option (Int × Nat)` for `lstat`, returning
`(st_mtime, st_size)`. -/

/-- `struct FileIdentification` (`src/db-file.hpp`). -/
structure FileIdent where
  Path : String
  Mtime : Int
  Size : Nat
deriving DecidableEq, Repr

/-- `FileIdentification::Valid()`: `!Path.empty()`. -/
def FileIdent.Valid (fi : FileIdent) : Bool := !fi.Path.isEmpty

/-- The `FileIdentification(const char *path)` constructor:
`Mtime` and `Size` start at 0; on `ResolvePath` success the canonical
path is stored and `lstat` is attempted; on `lstat` failure the path is
cleared again (leaving an invalid identity with zero fingerprint). -/
def mkFileIdentification (fsR : String → Option String)
    (fsM : String → Option (Int × Nat)) (path : String) : FileIdent :=
  match fsR path with
  | none => ⟨"", 0, 0⟩
  | some cp =>
    match fsM cp with
    | none => ⟨"", 0, 0⟩
    | some (m, z) => ⟨cp, m, z⟩

/-! ## Finding Ledger (`FileIdentificationDatabase::Impl`, `src/db-file.cpp`)

`FTable` (`std::map<std::string, shared_ptr<FileTableEntry>>`) is
modelled as an association list from key to the entry's
`FileIdentification`; shared entries are identified by their identical
`FileIdent` value.  `std::map` lookup is modelled by `lookupKey`
(first match; the code never inserts a second binding for an existing
key, so at most one logical binding per key exists). -/

/-- A staged finding (`Impl::Report`): the shared `FileTableEntry` is
referenced through its canonical path. -/
structure StagedReport where
  canon : String
  line : Nat
  column : Nat
  tool : String
  message : String
deriving DecidableEq, Repr

/-- In-memory state of one `FileIdentificationDatabase` instance. -/
structure LedgerState where
  ftable : List (String × FileIdent)
  reports : List StagedReport
  touched : List String
  errorMessage : String
deriving DecidableEq, Repr

/-- The empty ledger of a fresh instance. -/
def initLedger : LedgerState := ⟨[], [], [], ""⟩

/-- `std::map::find` on the modelled `FTable`. -/
def lookupKey (ft : List (String × FileIdent)) (k : String) : Option FileIdent :=
  (ft.find? (fun kv => kv.1 == k)).map (fun kv => kv.2)

/-- Core of `Impl::Resolve(Path)` acting on the table: returns the
updated table, the resolved entry (`none` when the file could not be
resolved), and the error message to set on failure. -/
def resolveCore (fsR : String → Option String)
    (fsM : String → Option (Int × Nat)) (ft : List (String × FileIdent))
    (path : String) : List (String × FileIdent) × Option FileIdent × String :=
  match lookupKey ft path with
  | some fi => (ft, some fi, "")
  | none =>
    let fi := mkFileIdentification fsR fsM path
    if fi.Valid then
      match lookupKey ft fi.Path with
      | some fi0 =>
        -- an entry for the canonical path already exists: alias to it.
        (ft ++ [(path, fi0)], some fi0, "")
      | none =>
        (ft ++ [(path, fi), (fi.Path, fi)], some fi, "")
    else
      (ft, none, "could not find file on disk: " ++ path)

/-- `Impl::Resolve` on the whole ledger state. -/
def ResolveL (fsR : String → Option String)
    (fsM : String → Option (Int × Nat)) (st : LedgerState) (path : String) :
    LedgerState × Option FileIdent :=
  match resolveCore fsR fsM st.ftable path with
  | (ft', some fi, _) => ({st with ftable := ft'}, some fi)
  | (ft', none, msg) => ({st with ftable := ft', errorMessage := msg}, none)

/-- `Impl::Record` (the implementation of
`FileIdentificationDatabase::Report`): resolve, then stage the finding;
a resolution failure yields `false` with no staged finding. -/
def RecordL (fsR : String → Option String)
    (fsM : String → Option (Int × Nat)) (st : LedgerState) (path : String)
    (line column : Nat) (tool message : String) : LedgerState × Bool :=
  match ResolveL fsR fsM st path with
  | (st', none) => (st', false)
  | (st', some fi) =>
    ({st' with reports := st'.reports ++ [⟨fi.Path, line, column, tool, message⟩]},
     true)

/-- `FileIdentificationDatabase::MarkForProcessing`: just records the
path; it takes effect at commit time. -/
def MarkForProcessingL (st : LedgerState) (path : String) : LedgerState :=
  {st with touched := st.touched ++ [path]}

/-- The ledger-facing API calls used to build a ledger state. -/
inductive LCall
  | record (path : String) (line column : Nat) (tool message : String)
  | mark (path : String)

/-- Replay a list of API calls against a ledger. -/
def runCalls (fsR : String → Option String)
    (fsM : String → Option (Int × Nat)) :
    List LCall → LedgerState → LedgerState
  | [], st => st
  | .record p l c t m :: rest, st =>
    runCalls fsR fsM rest (RecordL fsR fsM st p l c t m).1
  | .mark p :: rest, st =>
    runCalls fsR fsM rest (MarkForProcessingL st p)

/-! ## Store state (the two-table SQLite schema) -/

/-- A row of `files(id, path, mtime, size)`. -/
structure FileRow where
  id : Nat
  path : String
  mtime : Int
  size : Nat
deriving DecidableEq, Repr

/-- A row of `reports(file, line, column, tool, message)`, together with
its implicit SQLite `rowid` (insertion order). -/
structure ReportRow where
  rowid : Nat
  file : Nat
  line : Nat
  column : Nat
  tool : String
  message : String
deriving DecidableEq, Repr

/-- The visible store.  `files` and `reports` are kept in insertion
order; `nextFileId` and `nextRowid` model SQLite's monotonically
assigned rowids. -/
structure DBState where
  files : List FileRow
  reports : List ReportRow
  nextFileId : Nat
  nextRowid : Nat
deriving DecidableEq, Repr

/-- The freshly created store. -/
def emptyDB : DBState := ⟨[], [], 1, 1⟩

/-! ## `RunCommitTransaction` (`src/db-file.cpp`)

The unit of work run inside `Database::Transact` by `Impl::Commit`.
Each SQLite prepare/step site consumes one value of a step-outcome
oracle `o : Nat → StepOutcome` (indexed by a running counter), letting a
fault be injected at any step; `.done` means SQLite did not fail and the
effect is computed from the store state. -/

/-- Mutable state threaded through one run of `RunCommitTransaction`:
store, ftable (which `MarkAsProcessed`'s `Resolve` may extend), the
`FileTableEntry::ID` assignments made by the files-insert loop, the
error message, and the step counter. -/
structure RunSt where
  db : DBState
  ftable : List (String × FileIdent)
  ids : List (String × Nat)
  msg : String
  ctr : Nat
deriving Repr

/-- Consume one step-outcome from the oracle. -/
def takeStep (o : Nat → StepOutcome) (st : RunSt) : RunSt × StepOutcome :=
  ({st with ctr := st.ctr + 1}, o st.ctr)

/-- `Impl::MarkAsProcessed(Path)` for one touched path: resolve the path
(an unresolvable path returns `ERROR`), prepare and step the
`SELECT id FROM files WHERE path = ?` probe, and when a previous row for
the absolute path exists, `Resolve(Path)` to schedule a fresh masking
row (a failing `Resolve` returns `ERROR`). -/
def markOne (fsR : String → Option String)
    (fsM : String → Option (Int × Nat)) (o : Nat → StepOutcome)
    (st : RunSt) (p : String) : Except (TransactionResult × RunSt) RunSt :=
  match fsR p with
  | none =>
    .error (.ERROR, {st with msg := "could not find file on disk: " ++ p})
  | some abs =>
    let (st, r1) := takeStep o st   -- TxnPrepare of the SELECT
    if r1 ≠ .done then .error (stepClass r1, st)
    else
      let (st, r2) := takeStep o st -- sqlite3_step of the SELECT
      if r2 ≠ .done then .error (stepClass r2, st)
      else
        if st.db.files.any (fun fr => fr.path == abs) then
          match resolveCore fsR fsM st.ftable p with
          | (ft', some _, _) => .ok {st with ftable := ft'}
          | (ft', none, m) => .error (.ERROR, {st with ftable := ft', msg := m})
        else
          -- file not in the database: no need to mask older errors.
          .ok st

/-- The `MarkAsProcessed` loop over all touched paths. -/
def markAll (fsR : String → Option String)
    (fsM : String → Option (Int × Nat)) (o : Nat → StepOutcome) :
    List String → RunSt → Except (TransactionResult × RunSt) RunSt
  | [], st => .ok st
  | p :: rest, st =>
    match markOne fsR fsM o st p with
    | .error e => .error e
    | .ok st' => markAll fsR fsM o rest st'

/-- The canonical paths of the primary (non-alias) `FTable` entries, in
`std::map` iteration order (sorted, duplicate-free). -/
def primaryCanons (ft : List (String × FileIdent)) : List String :=
  sortDedup ((ft.filter (fun kv => kv.2.Path == kv.1)).map (fun kv => kv.1))

/-- The `FileIdentification` stored under a canonical key. -/
def identAt (ft : List (String × FileIdent)) (c : String) : FileIdent :=
  (lookupKey ft c).getD ⟨"", 0, 0⟩

/-- The `INSERT INTO files` loop: one row per primary `FTable` entry, in
iteration order; each successful step appends a row with a fresh id and
records the id in the entry (`p->second->ID = last_insert_rowid`). -/
def insertFiles (o : Nat → StepOutcome) :
    List String → RunSt → Except (TransactionResult × RunSt) RunSt
  | [], st => .ok st
  | c :: rest, st =>
    let fi := identAt st.ftable c
    let (st, r) := takeStep o st
    if r ≠ .done then .error (stepClass r, st)
    else
      let fid := st.db.nextFileId
      let db' := {st.db with
        files := st.db.files ++ [⟨fid, fi.Path, fi.Mtime, fi.Size⟩],
        nextFileId := fid + 1}
      insertFiles o rest {st with db := db', ids := st.ids ++ [(c, fid)]}

/-- The id assigned to a canonical path by the files-insert loop
(`FileTableEntry::ID`, initialized to 0). -/
def idOf (ids : List (String × Nat)) (c : String) : Nat :=
  ((ids.find? (fun kv => kv.1 == c)).map (fun kv => kv.2)).getD 0

/-- The `INSERT INTO reports` loop: one row per staged finding, in
staging order, bound to the id its `FileTableEntry` received. -/
def insertReports (o : Nat → StepOutcome) :
    List StagedReport → RunSt → Except (TransactionResult × RunSt) RunSt
  | [], st => .ok st
  | r :: rest, st =>
    let (st, rr) := takeStep o st
    if rr ≠ .done then .error (stepClass rr, st)
    else
      let row : ReportRow :=
        ⟨st.db.nextRowid, idOf st.ids r.canon, r.line, r.column, r.tool, r.message⟩
      insertReports o rest
        {st with db := {st.db with
          reports := st.db.reports ++ [row], nextRowid := st.db.nextRowid + 1}}

/-- `Impl::RunCommitTransaction`: mark all touched paths, prepare and
run the files-insert loop, prepare and run the reports-insert loop,
and return `COMMIT` only when every step succeeded. -/
def RunCommitTransaction (fsR : String → Option String)
    (fsM : String → Option (Int × Nat)) (o : Nat → StepOutcome)
    (L : LedgerState) (db : DBState) : TransactionResult × RunSt :=
  let st0 : RunSt := ⟨db, L.ftable, [], L.errorMessage, 0⟩
  match markAll fsR fsM o L.touched st0 with
  | .error e => e
  | .ok st1 =>
    let (st1, rp) := takeStep o st1  -- TxnPrepare of INSERT INTO files
    if rp ≠ .done then (stepClass rp, st1)
    else
      match insertFiles o (primaryCanons st1.ftable) st1 with
      | .error e => e
      | .ok st2 =>
        let (st2, rp2) := takeStep o st2 -- TxnPrepare of INSERT INTO reports
        if rp2 ≠ .done then (stepClass rp2, st2)
        else
          match insertReports o L.reports st2 with
          | .error e => e
          | .ok st3 => (.COMMIT, st3)

/-- `FileIdentificationDatabase::Commit` on a ledger built by `calls`:
run `RunCommitTransaction` through `Database::Transact` (with per-attempt
step oracles `o k`) and report success iff the overall outcome is
`COMMIT`.  Returns the success flag and the visible store state. -/
def CommitModel (fsR : String → Option String)
    (fsM : String → Option (Int × Nat)) (o : Nat → Nat → StepOutcome)
    (env : Nat → AttemptOracle) (calls : List LCall) (db : DBState) :
    Bool × DBState :=
  let L := runCalls fsR fsM calls initLedger
  let out := Transact
    (fun k s => let r := RunCommitTransaction fsR fsM (o k) L s
                (r.1, r.2.db))
    env db
  (out.result == .COMMIT, out.state)

/-! ## Report Query Engine (`Report`, `src/db-report.cpp`)

The read path is modelled fault-free on the SQLite side (no injected
step failures): the claims about it concern enumeration, per-path
selection and local error scoping.  The run is represented as a trace of
observable events plus the boolean result (`true` iff no local error
condition was emitted). -/

/-- Observable events of one `Report` run. -/
inductive REvent
  | enumPath (p : String)
  | errNotFound (p : String)
  | errNoReport (p : String)
  | finding (path : String) (line column : Nat) (tool message : String)
deriving DecidableEq, Repr

/-- `SELECT DISTINCT path FROM files ORDER BY path`. -/
def distinctPaths (db : DBState) : List String :=
  sortDedup (db.files.map (fun fr => fr.path))

/-- `SELECT id FROM files WHERE path = ? AND mtime = ? AND size = ?
ORDER BY id DESC LIMIT 1`: the greatest id among the rows whose path and
fingerprint match. -/
def selectFileId (db : DBState) (p : String) (m : Int) (z : Nat) : Option Nat :=
  (db.files.filter (fun fr => fr.path == p && fr.mtime == m && fr.size == z)).foldl
    (fun acc fr => match acc with
      | none => some fr.id
      | some b => some (max b fr.id))
    none

/-- `SELECT DISTINCT line, column, tool, message FROM reports WHERE
file = ? ORDER BY rowid`: the rows for `fid` in rowid order, keeping the
first occurrence of each distinct (line, column, tool, message). -/
def findingRows (db : DBState) (fid : Nat) : List ReportRow :=
  (db.reports.filter (fun rr => rr.file == fid)).foldl
    (fun acc rr =>
      if acc.any (fun rr' => rr'.line == rr.line && rr'.column == rr.column
          && rr'.tool == rr.tool && rr'.message == rr.message)
      then acc else acc ++ [rr])
    []

/-- The inner row loop: each fetched row is passed to the callback; a
`false` from the callback breaks out of the current path's stream. -/
def streamFindings (cb : String → Nat → Nat → String → String → Bool)
    (p : String) : List ReportRow → List REvent
  | [] => []
  | rr :: rest =>
    .finding p rr.line rr.column rr.tool rr.message ::
      (if cb p rr.line rr.column rr.tool rr.message
       then streamFindings cb p rest else [])

/-- Processing of a single enumerated path: recompute the identity
(`FileIdentification FI(path)`), emit the local "file not found" or
"no matching report" condition, or stream the selected row's findings.
Returns the events and whether the path was processed without a local
error. -/
def reportOnePath (fsR : String → Option String)
    (fsM : String → Option (Int × Nat)) (db : DBState)
    (cb : String → Nat → Nat → String → String → Bool) (p : String) :
    List REvent × Bool :=
  let fi := mkFileIdentification fsR fsM p
  if ¬ fi.Valid then ([.errNotFound p], false)
  else
    match selectFileId db p fi.Mtime fi.Size with
    | none => ([.errNoReport p], false)
    | some fid => (streamFindings cb p (findingRows db fid), true)

/-- Model of `Report(DB, CB)`: enumerate the distinct paths, process
each in turn (local errors flip the result to `false` but processing
continues with the next path), and return the trace and the result. -/
def ReportRun (fsR : String → Option String)
    (fsM : String → Option (Int × Nat)) (db : DBState)
    (cb : String → Nat → Nat → String → String → Bool) :
    List REvent × Bool :=
  (distinctPaths db).foldl
    (fun acc p =>
      let r := reportOnePath fsR fsM db cb p
      (acc.1 ++ .enumPath p :: r.1, acc.2 && r.2))
    ([], true)

/-- The path of an `enumPath` event, if any. -/
def enumPathOf : REvent → Option String
  | .enumPath p => some p
  | _ => none

/-! ## Helper lemmas: the string ordering and `sortDedup` -/

theorem charListLt_irrefl : ∀ l : List Char, charListLt l l = false := by
  intro l
  induction l with
  | nil => rfl
  | cons a as ih => simp [charListLt, ih]

theorem charListLt_trans : ∀ {a b c : List Char},
    charListLt a b = true → charListLt b c = true → charListLt a c = true := by
  intro a
  induction a with
  | nil =>
    intro b c hab hbc
    cases b with
    | nil => simp [charListLt] at hab
    | cons y ys =>
      cases c with
      | nil => simp [charListLt] at hbc
      | cons z zs => simp [charListLt]
  | cons x xs ih =>
    intro b c hab hbc
    cases b with
    | nil => simp [charListLt] at hab
    | cons y ys =>
      cases c with
      | nil => simp [charListLt] at hbc
      | cons z zs =>
        simp only [charListLt] at hab hbc ⊢
        rcases lt_trichotomy x y with hxy | hxy | hxy
        · rcases lt_trichotomy y z with hyz | hyz | hyz
          · simp [lt_trans hxy hyz]
          · subst hyz; simp [hxy]
          · -- y < z fails and z < y holds: hbc forces a contradiction
            simp [hyz, asymm hyz] at hbc
        · subst hxy
          rcases lt_trichotomy x z with hxz | hxz | hxz
          · simp [hxz]
          · subst hxz
            simp only [lt_irrefl, if_false] at hab hbc ⊢
            exact ih hab hbc
          · simp [hxz, asymm hxz] at hbc
        · simp [hxy, asymm hxy] at hab

theorem charListLt_total : ∀ {a b : List Char}, a ≠ b →
    charListLt a b = true ∨ charListLt b a = true := by
  intro a
  induction a with
  | nil =>
    intro b hne
    cases b with
    | nil => exact absurd rfl hne
    | cons y ys => left; simp [charListLt]
  | cons x xs ih =>
    intro b hne
    cases b with
    | nil => right; simp [charListLt]
    | cons y ys =>
      rcases lt_trichotomy x y with hxy | hxy | hxy
      · left; simp [charListLt, hxy]
      · subst hxy
        have hne' : xs ≠ ys := by intro h; exact hne (by rw [h])
        rcases ih hne' with h | h
        · left; simp [charListLt, h]
        · right; simp [charListLt, h]
      · right; simp [charListLt, hxy, asymm hxy]

theorem strLt_irrefl (s : String) : strLt s s = false :=
  charListLt_irrefl s.toList

theorem strLt_trans {a b c : String} (h₁ : strLt a b = true)
    (h₂ : strLt b c = true) : strLt a c = true :=
  charListLt_trans h₁ h₂

theorem string_toList_inj {s t : String} (h : s.toList = t.toList) : s = t := by
  cases s; cases t
  simp only [String.toList] at h
  subst h; rfl

theorem strLt_total {a b : String} (hne : a ≠ b) :
    strLt a b = true ∨ strLt b a = true := by
  have : a.toList ≠ b.toList := fun h => hne (string_toList_inj h)
  exact charListLt_total this

theorem strLt_ne {a b : String} (h : strLt a b = true) : a ≠ b := by
  intro he; subst he; simp [strLt_irrefl] at h

theorem mem_insertSorted {x a : String} : ∀ {l : List String},
    a ∈ insertSorted x l ↔ a = x ∨ a ∈ l := by
  intro l
  induction l with
  | nil => simp [insertSorted]
  | cons y ys ih =>
    simp only [insertSorted]
    split
    · rename_i hxy
      subst hxy
      simp only [List.mem_cons]
      tauto
    · split <;> simp only [List.mem_cons, ih] <;> try tauto

theorem pairwise_insertSorted {x : String} : ∀ {l : List String},
    List.Pairwise (fun a b => strLt a b = true) l →
    List.Pairwise (fun a b => strLt a b = true) (insertSorted x l) := by
  intro l
  induction l with
  | nil => intro _; simp [insertSorted]
  | cons y ys ih =>
    intro hp
    rcases List.pairwise_cons.1 hp with ⟨hy, hys⟩
    by_cases hxy : x = y
    · subst hxy; simpa [insertSorted] using hp
    · simp only [insertSorted, if_neg hxy]
      by_cases hlt : strLt x y = true
      · simp only [hlt, if_true]
        refine List.pairwise_cons.2 ⟨?_, hp⟩
        intro b hb
        rcases List.mem_cons.1 hb with hb | hb
        · subst hb; exact hlt
        · exact strLt_trans hlt (hy b hb)
      · simp only [hlt, if_false]
        refine List.pairwise_cons.2 ⟨?_, ih hys⟩
        intro b hb
        rcases mem_insertSorted.1 hb with hb | hb
        · subst hb
          rcases strLt_total hxy with h | h
          · exact absurd h hlt
          · exact h
        · exact hy b hb

theorem sortDedup_pairwise (l : List String) :
    List.Pairwise (fun a b => strLt a b = true) (sortDedup l) := by
  induction l with
  | nil => simp [sortDedup]
  | cons x xs ih => exact pairwise_insertSorted ih

theorem mem_sortDedup {a : String} : ∀ {l : List String},
    a ∈ sortDedup l ↔ a ∈ l := by
  intro l
  induction l with
  | nil => simp [sortDedup]
  | cons x xs ih =>
    simp only [sortDedup, List.foldr_cons, List.mem_cons]
    rw [show xs.foldr insertSorted [] = sortDedup xs from rfl] at *
    rw [mem_insertSorted, ih]

theorem sortDedup_nodup (l : List String) : (sortDedup l).Nodup := by
  have := sortDedup_pairwise l
  exact this.imp (fun h => strLt_ne h)

/-! ## Claim C9: `Carets` -/

/-- C9: `Carets(text, column, width)` is a pure function returning the
empty string when `column` is zero; otherwise it returns the characters
of `text` before position `column` rendered as spaces except tabs (kept
verbatim), followed by exactly `width` carets.  In particular
`Carets("\tfoo(x)", 6, 3)` keeps the leading tab, renders the remaining
pre-column characters as spaces, and appends exactly 3 carets. -/
theorem carets_spec :
    (∀ t w, Carets t 0 w = []) ∧
    (∀ (t : List Char) (col w : Nat), 0 < col →
      ∃ mask, Carets t col w = mask ++ List.replicate w '^' ∧
        mask.length = min (col - 1) t.length ∧
        ∀ (i : Nat) (h : i < mask.length) (h' : i < t.length),
          mask.get ⟨i, h⟩ = if t.get ⟨i, h'⟩ = '\t' then '\t' else ' ') ∧
    Carets "\tfoo(x)".toList 6 3
      = '\t' :: (List.replicate 4 ' ' ++ List.replicate 3 '^') := by
  refine ⟨fun t w => by simp [Carets], ?_, by decide⟩
  intro t col w hcol
  refine ⟨(t.take (min (col - 1) t.length)).map
    (fun ch => if ch = '\t' then '\t' else ' '), ?_, ?_, ?_⟩
  · simp [Carets, Nat.pos_iff_ne_zero.1 hcol]
  · simp [Nat.min_assoc]
  · intro i h h'
    simp only [List.get_eq_getElem, List.getElem_map, List.getElem_take]

/-- Witness for C9 at the spec's example input. -/
theorem carets_spec_witness :
    0 < 6 ∧
    ∃ mask, Carets "\tfoo(x)".toList 6 3 = mask ++ List.replicate 3 '^' ∧
      mask.length = min (6 - 1) ("\tfoo(x)".toList).length ∧
      ∀ (i : Nat) (h : i < mask.length) (h' : i < ("\tfoo(x)".toList).length),
        mask.get ⟨i, h⟩ = if ("\tfoo(x)".toList).get ⟨i, h'⟩ = '\t' then '\t' else ' ' :=
  ⟨by decide, carets_spec.2.1 "\tfoo(x)".toList 6 3 (by decide)⟩

/-! ## Claim C2: `Patch` -/

/-- C2 counterexample: on the one-line buffer `"ab"`, `Patch(1, 1, "ab", "c")`
has line and column in bounds and the line's bytes starting at column 1
equal `"ab"` byte-for-byte, yet `Patch` fails: the source condition
`Old.size() >= ToPatch.size() - Offset` rejects any match that extends to
the end of the line, so the claimed "succeeds if and only if in bounds
and matching" is false. -/
theorem patch_claim_counterexample :
    1 ≤ 1 ∧ 1 ≤ (["ab".toList] : List (List Char)).length ∧
    1 ≤ ("ab".toList).length ∧
    ("ab".toList).isPrefixOf (("ab".toList).drop (1 - 1)) = true ∧
    Patch ["ab".toList] 1 1 "ab".toList "c".toList = none := by
  decide

/-- C2 (amended): `Patch(line, column, old, new)` succeeds if and only if
line and column are within bounds, the bytes of the addressed line
starting at column equal `old` byte-for-byte, **and the matched span ends
strictly before the end of the line** (`column - 1 + |old| < |line|`);
on success it replaces exactly the matched span with `new` and leaves the
rest of the line untouched; on failure it performs no mutation (modelled
by the `Option` result).  The spec's example still holds:
`Patch(1, 5, "sprintf", "formatstr")` on `"x = sprintf(a);"` yields
`"x = formatstr(a);"`, and re-invoking the same call on the result fails. -/
theorem patch_spec :
    (∀ (lines : List (List Char)) (lineNo col : Nat) (oldT newT : List Char),
      ((Patch lines lineNo col oldT newT).isSome = true ↔
        (1 ≤ lineNo ∧ lineNo ≤ lines.length ∧
         1 ≤ col ∧ col ≤ (lines.getD (lineNo - 1) []).length ∧
         oldT.isPrefixOf ((lines.getD (lineNo - 1) []).drop (col - 1)) = true ∧
         col - 1 + oldT.length < (lines.getD (lineNo - 1) []).length)) ∧
      (∀ r, Patch lines lineNo col oldT newT = some r →
        r = lines.set (lineNo - 1)
          ((lines.getD (lineNo - 1) []).take (col - 1) ++ newT ++
           (lines.getD (lineNo - 1) []).drop (col - 1 + oldT.length)))) ∧
    Patch ["x = sprintf(a);".toList] 1 5 "sprintf".toList "formatstr".toList
      = some ["x = formatstr(a);".toList] ∧
    Patch ["x = formatstr(a);".toList] 1 5 "sprintf".toList "formatstr".toList
      = none := by
  refine ⟨?_, by decide, by decide⟩
  intro lines lineNo col oldT newT
  constructor
  · simp only [Patch]
    split
    · rename_i h
      simp only [Option.isSome_none, Bool.false_eq_true, false_iff]
      omega
    · rename_i h
      split
      · rename_i h2
        simp only [Option.isSome_none, Bool.false_eq_true, false_iff]
        omega
      · rename_i h2
        split
        · rename_i h3
          simp only [Option.isSome_none, Bool.false_eq_true, false_iff]
          intro hc
          rcases h3 with h3 | h3
          · omega
          · exact h3 hc.2.2.2.2.1
        · rename_i h3
          simp only [Option.isSome_some, true_iff]
          push_neg at h3
          refine ⟨by omega, by omega, by omega, by omega, ?_, by omega⟩
          simpa using h3.2
  · intro r hr
    simp only [Patch] at hr
    split at hr
    · exact absurd hr (by simp)
    · split at hr
      · exact absurd hr (by simp)
      · split at hr
        · exact absurd hr (by simp)
        · simpa using hr.symm

/-- Witness for C2 at the spec's example input: the hypothesis of the
success-effect clause is discharged at a concrete patch call. -/
theorem patch_spec_witness :
    ["x = formatstr(a);".toList]
      = (["x = sprintf(a);".toList] : List (List Char)).set (1 - 1)
          (((["x = sprintf(a);".toList] : List (List Char)).getD (1 - 1) []).take (5 - 1)
           ++ "formatstr".toList ++
           ((["x = sprintf(a);".toList] : List (List Char)).getD (1 - 1) []).drop
             (5 - 1 + ("sprintf".toList).length)) :=
  (patch_spec.1 ["x = sprintf(a);".toList] 1 5 "sprintf".toList "formatstr".toList).2
    ["x = formatstr(a);".toList] (by decide)

/-! ## Claim C8: `FileIdentification::Valid` -/

/-- C8 counterexample: with a filesystem where canonicalization of `"a"`
succeeds (realpath returns `"/a"`) but the subsequent `lstat` of the
canonical path fails, the constructor clears the path
(`Path.clear()` on `lstat` failure), so `Valid()` is false even though
canonicalization succeeded — refuting "Valid() is true iff
canonicalization of the path succeeded". -/
theorem fileident_claim_counterexample :
    ((fun p => if p = "a" then some "/a" else none : String → Option String) "a").isSome
      = true ∧
    (mkFileIdentification (fun p => if p = "a" then some "/a" else none)
      (fun _ => none) "a").Valid = false := by
  decide

/-- C8 (amended): provided canonicalization never returns an empty path
(realpath outputs are absolute), `Valid()` is true iff canonicalization
succeeded **and the subsequent metadata read (`lstat`) of the canonical
path succeeded**; whenever `Valid()` is false, the fingerprint fields
(mtime, size) are zero. -/
theorem fileident_spec :
    ∀ (fsR : String → Option String) (fsM : String → Option (Int × Nat)) (p : String),
    (∀ q cp, fsR q = some cp → cp.isEmpty = false) →
    (((mkFileIdentification fsR fsM p).Valid = true) ↔
      ∃ cp, fsR p = some cp ∧ (fsM cp).isSome = true) ∧
    ((mkFileIdentification fsR fsM p).Valid = false →
      (mkFileIdentification fsR fsM p).Mtime = 0 ∧
      (mkFileIdentification fsR fsM p).Size = 0) := by
  intro fsR fsM p hNE
  have hval : ∀ fi : FileIdent, fi.Valid = true ↔ fi.Path.isEmpty = false := by
    intro fi; simp [FileIdent.Valid]
  constructor
  · constructor
    · intro hv
      cases hR : fsR p with
      | none =>
        rw [hval] at hv
        simp [mkFileIdentification, hR] at hv
        exact absurd hv (by decide)
      | some cp =>
        cases hM : fsM cp with
        | none =>
          rw [hval] at hv
          simp [mkFileIdentification, hR, hM] at hv
          exact absurd hv (by decide)
        | some mz => exact ⟨cp, rfl, by simp [hM]⟩
    · rintro ⟨cp, hcp, hM⟩
      obtain ⟨mz, hmz⟩ := Option.isSome_iff_exists.1 hM
      have hne := hNE p cp hcp
      rw [hval]
      cases mz with
      | mk m z => simp [mkFileIdentification, hcp, hmz, hne]
  · intro hv
    cases hR : fsR p with
    | none => simp [mkFileIdentification, hR]
    | some cp =>
      cases hM : fsM cp with
      | none => simp [mkFileIdentification, hR, hM]
      | some mz =>
        exfalso
        have hne := hNE p cp hR
        cases mz with
        | mk m z =>
          simp [mkFileIdentification, hR, hM, FileIdent.Valid, hne] at hv

/-- Resolver oracle for the C8 witness: only `"a"` resolves, to `"/a"`. -/
def fsR8 : String → Option String := fun p => if p = "a" then some "/a" else none

/-- Metadata oracle for the C8 witness: only `"/a"` has metadata. -/
def fsM8 : String → Option (Int × Nat) :=
  fun p => if p = "/a" then some ((3 : Int), (4 : Nat)) else none

/-- Witness for C8: the amended theorem applied at a concrete resolvable
path, with the nonempty-canonical-path hypothesis discharged. -/
theorem fileident_spec_witness :
    (((mkFileIdentification fsR8 fsM8 "a").Valid = true) ↔
      ∃ cp, fsR8 "a" = some cp ∧ (fsM8 cp).isSome = true) ∧
    ((mkFileIdentification fsR8 fsM8 "a").Valid = false →
      (mkFileIdentification fsR8 fsM8 "a").Mtime = 0 ∧
      (mkFileIdentification fsR8 fsM8 "a").Size = 0) := by
  have hNE : ∀ q cp, fsR8 q = some cp → cp.isEmpty = false := by
    intro q cp h
    by_cases hq : q = "a"
    · subst hq
      simp [fsR8] at h
      subst h
      decide
    · simp [fsR8, hq] at h
  exact fileident_spec fsR8 fsM8 "a" hNE

/-! ## Claim C10: `LineEditor::Read` / `Write` round-trip -/

theorem serializeLines_nil : serializeLines [] = [] := rfl

theorem serializeLines_cons (a : List Char) (L : List (List Char)) :
    serializeLines (a :: L) = a ++ '\n' :: serializeLines L := by
  simp [serializeLines]

theorem serializeLines_last_newline : ∀ L : List (List Char),
    serializeLines L = [] ∨ (serializeLines L).getLast? = some '\n' := by
  intro L
  induction L with
  | nil => left; rfl
  | cons a L ih =>
    right
    rw [serializeLines_cons]
    rcases ih with h | h
    · rw [h]
      rw [show a ++ '\n' :: ([] : List Char) = a ++ ['\n'] from rfl]
      exact List.getLast?_concat a
    · have hne : '\n' :: serializeLines L ≠ [] := by simp
      rw [List.getLast?_append_of_ne_nil a hne]
      cases hL : serializeLines L with
      | nil => simp [hL] at h
      | cons x xs =>
        have : x :: xs ≠ [] := by simp
        rw [show '\n' :: (x :: xs) = ['\n'] ++ (x :: xs) from rfl,
            List.getLast?_append_of_ne_nil ['\n'] this]
        rw [hL] at h
        exact h

theorem readLinesAux_decomp : ∀ (cs acc : List Char), '\n' ∉ acc →
    ∃ t, serializeLines (readLinesAux acc cs) ++ t = acc ++ cs ∧ '\n' ∉ t := by
  intro cs
  induction cs with
  | nil =>
    intro acc hacc
    exact ⟨acc, by simp [readLinesAux, serializeLines_nil], hacc⟩
  | cons c cs ih =>
    intro acc hacc
    by_cases hc : c = '\n'
    · subst hc
      obtain ⟨t, ht, hnt⟩ := ih [] (by simp)
      refine ⟨t, ?_, hnt⟩
      simp only [readLinesAux]
      rw [if_pos trivial]
      simp only [List.nil_append] at ht
      rw [serializeLines_cons, List.append_assoc, List.cons_append, ht]
    · obtain ⟨t, ht, hnt⟩ := ih (acc ++ [c]) (by
        intro hmem
        rcases List.mem_append.1 hmem with h | h
        · exact hacc h
        · simp at h; exact hc h.symm)
      refine ⟨t, ?_, hnt⟩
      simp only [readLinesAux, if_neg hc]
      rw [ht]
      simp

/-- C10: `LineEditor::Read` stores exactly the newline-terminated lines
of the file in order: the content decomposes as the serialization of the
stored lines followed by a newline-free tail (the discarded unterminated
final line), the tail is empty exactly when the content is empty or ends
in a newline, and for such content a `Read` followed by a `Write`
reproduces the original byte sequence. -/
theorem read_discards_unterminated_line :
    ∀ cs : List Char,
    ∃ t, serializeLines (readLines cs) ++ t = cs ∧ '\n' ∉ t ∧
      (t = [] ↔ (cs = [] ∨ cs.getLast? = some '\n')) ∧
      ((cs = [] ∨ cs.getLast? = some '\n') → serializeLines (readLines cs) = cs) := by
  intro cs
  obtain ⟨t, ht, hnt⟩ := readLinesAux_decomp cs [] (by simp)
  simp only [List.nil_append] at ht
  have hrl : readLinesAux [] cs = readLines cs := rfl
  rw [hrl] at ht
  have hiff : t = [] ↔ (cs = [] ∨ cs.getLast? = some '\n') := by
    constructor
    · intro h0
      subst h0
      simp only [List.append_nil] at ht
      rcases serializeLines_last_newline (readLines cs) with h | h
      · left; rw [← ht, h]
      · right; rw [← ht]; exact h
    · rintro (h | h)
      · subst h
        have := List.append_eq_nil.1 ht
        exact this.2
      · by_contra hne
        have hlast : cs.getLast? = t.getLast? := by
          rw [← ht]
          exact (List.getLast?_append_of_ne_nil _ hne)
        rw [h] at hlast
        have hmem : '\n' ∈ t := List.mem_of_mem_getLast? hlast.symm
        exact hnt hmem
  refine ⟨t, ht, hnt, hiff, ?_⟩
  intro h
  have h0 := hiff.2 h
  subst h0
  simpa using ht

/-- Witness for C10: for newline-terminated content `Read` then `Write`
reproduces the bytes (hypothesis of the round-trip clause discharged at
`"a\n"`), while content with an unterminated final line loses it. -/
theorem read_discards_witness :
    serializeLines (readLines "a\n".toList) = "a\n".toList ∧
    serializeLines (readLines "a\nbc".toList) = "a\n".toList := by
  obtain ⟨t, ht, hnt, hiff, hrt⟩ := read_discards_unterminated_line "a\n".toList
  exact ⟨hrt (Or.inr (by decide)), by decide⟩

/-! ## Claim C7: `LineEditor::Write` crash-safety -/

theorem path_ne_tmp (path : String) : path ≠ path ++ ".new" := by
  intro h
  have hlen := congrArg String.length h
  rw [String.length_append] at hlen
  have h4 : ".new".length = 4 := rfl
  omega

/-- C7: `Write(path)` serializes the buffer one newline-terminated line
per record into the sibling temporary file `path ++ ".new"`; it returns
`true` exactly when opening, every write, and the rename all succeed, in
which case the original is atomically replaced by the serialized content
and the temporary file is gone; on any failure it returns `false`, the
original file is byte-identical, and (when the temporary file was
created) the temporary file has been deleted, so no half-written file
ever takes the place of the original. -/
theorem write_spec :
    ∀ (fs : String → Option (List Char)) (path : String)
      (lines : List (List Char)) (openOk : Bool) (failAt : Option Nat)
      (renameOk : Bool),
    ((WriteModel fs path lines openOk failAt renameOk).2 = true ↔
      (openOk = true ∧ failAt = none ∧ renameOk = true)) ∧
    ((WriteModel fs path lines openOk failAt renameOk).2 = true →
      (WriteModel fs path lines openOk failAt renameOk).1 path
          = some (serializeLines lines) ∧
      (WriteModel fs path lines openOk failAt renameOk).1 (path ++ ".new") = none) ∧
    ((WriteModel fs path lines openOk failAt renameOk).2 = false →
      (WriteModel fs path lines openOk failAt renameOk).1 path = fs path ∧
      (openOk = true →
        (WriteModel fs path lines openOk failAt renameOk).1 (path ++ ".new") = none)) := by
  intro fs path lines openOk failAt renameOk
  have hne := path_ne_tmp path
  cases openOk with
  | false =>
    simp [WriteModel]
  | true =>
    cases failAt with
    | some k =>
      simp [WriteModel, hne]
    | none =>
      cases renameOk with
      | false => simp [WriteModel, hne]
      | true =>
        have hW : WriteModel fs path lines true none true
            = (fun q => if q = path then some (serializeLines lines)
                        else if q = path ++ ".new" then none else fs q, true) := rfl
        rw [hW]
        refine ⟨by simp, ?_, by simp⟩
        intro _
        exact ⟨by simp, by simp [Ne.symm hne]⟩

/-- Witness for C7: the failure clause applied at a concrete failing
write (fault injected after one line) on a one-file filesystem. -/
theorem write_spec_witness :
    (WriteModel (fun q => if q = "f" then some "old\n".toList else none)
        "f" ["x".toList, "y".toList] true (some 1) true).2 = false ∧
    (WriteModel (fun q => if q = "f" then some "old\n".toList else none)
        "f" ["x".toList, "y".toList] true (some 1) true).1 "f"
      = (fun q => if q = "f" then some "old\n".toList else none) "f" ∧
    (WriteModel (fun q => if q = "f" then some "old\n".toList else none)
        "f" ["x".toList, "y".toList] true (some 1) true).1 ("f" ++ ".new") = none := by
  have h := (write_spec (fun q => if q = "f" then some "old\n".toList else none)
    "f" ["x".toList, "y".toList] true (some 1) true).2.2 (by decide)
  exact ⟨by decide, h.1, h.2 rfl⟩

/-! ## Generic lemmas about `Transact` -/

theorem count_runUnit_pre (retries : Nat) :
    (if retries = 0 then ([] : List DBAction)
     else [DBAction.sleep (100 * 2 ^ (retries - 1))]).count DBAction.runUnit = 0 := by
  split <;> simp [List.count_eq_zero]

/-- A non-`COMMIT` outcome leaves the visible store state unchanged:
every attempt either commits, or is closed (or never opened) with the
state at `BEGIN` restored. -/
theorem transactGo_state {σ : Type} (runner : Nat → σ → TransactionResult × σ)
    (env : Nat → AttemptOracle) (s : σ) :
    ∀ (fuel retries : Nat),
    (transactGo runner env s retries fuel).result ≠ .COMMIT →
    (transactGo runner env s retries fuel).state = s := by
  intro fuel
  induction fuel with
  | zero => intro retries _; simp [transactGo]
  | succ n ih =>
    intro retries hres
    simp only [transactGo] at hres ⊢
    cases hb : (env retries).beginOutcome with
    | busy =>
      simp only [hb] at hres ⊢
      exact ih (retries + 1) (by simpa using hres)
    | fail => simp [hb]
    | done =>
      rcases hr : runner retries s with ⟨r, s'⟩
      cases r with
      | COMMIT =>
        cases hc : (env retries).commitOutcome with
        | done => simp [hb, hr, hc] at hres
        | busy =>
          cases hrb : (env retries).rollbackOk with
          | true =>
            simp only [hb, hr, hc] at hres ⊢
            simp only [hrb, if_true] at hres ⊢
            exact ih (retries + 1) (by simpa using hres)
          | false => simp [hb, hr, hc, hrb]
        | fail =>
          cases hrb : (env retries).rollbackOk with
          | true =>
            simp only [hb, hr, hc] at hres ⊢
            simp only [hrb, if_true] at hres ⊢
            exact ih (retries + 1) (by simpa using hres)
          | false => simp [hb, hr, hc, hrb]
      | ROLLBACK =>
        cases hrb : (env retries).rollbackOk with
        | true => simp [hb, hr, hrb]
        | false => simp [hb, hr, hrb]
      | ERROR => simp [hb, hr]
      | RETRY =>
        cases hrb : (env retries).rollbackOk with
        | true =>
          simp only [hb, hr] at hres ⊢
          simp only [hrb, if_true] at hres ⊢
          exact ih (retries + 1) (by simpa using hres)
        | false => simp [hb, hr, hrb]

/-- A `COMMIT` outcome originates from some attempt of the runner that
returned `COMMIT` and whose final state is the visible one. -/
theorem transactGo_commit {σ : Type} (runner : Nat → σ → TransactionResult × σ)
    (env : Nat → AttemptOracle) (s : σ) :
    ∀ (fuel retries : Nat),
    (transactGo runner env s retries fuel).result = .COMMIT →
    ∃ k, runner k s = (.COMMIT, (transactGo runner env s retries fuel).state) := by
  intro fuel
  induction fuel with
  | zero => intro retries h; simp [transactGo] at h
  | succ n ih =>
    intro retries hres
    simp only [transactGo] at hres ⊢
    cases hb : (env retries).beginOutcome with
    | busy =>
      simp only [hb] at hres ⊢
      exact ih (retries + 1) (by simpa using hres)
    | fail => simp [hb] at hres
    | done =>
      rcases hr : runner retries s with ⟨r, s'⟩
      cases r with
      | COMMIT =>
        cases hc : (env retries).commitOutcome with
        | done => exact ⟨retries, by simp [hb, hr, hc]⟩
        | busy =>
          cases hrb : (env retries).rollbackOk with
          | true =>
            simp only [hb, hr, hc, hrb, if_true] at hres ⊢
            exact ih (retries + 1) (by simpa using hres)
          | false => simp [hb, hr, hc, hrb] at hres
        | fail =>
          cases hrb : (env retries).rollbackOk with
          | true =>
            simp only [hb, hr, hc, hrb, if_true] at hres ⊢
            exact ih (retries + 1) (by simpa using hres)
          | false => simp [hb, hr, hc, hrb] at hres
      | ROLLBACK =>
        cases hrb : (env retries).rollbackOk with
        | true => simp [hb, hr, hrb] at hres
        | false => simp [hb, hr, hrb] at hres
      | ERROR => simp [hb, hr] at hres
      | RETRY =>
        cases hrb : (env retries).rollbackOk with
        | true =>
          simp only [hb, hr, hrb, if_true] at hres ⊢
          exact ih (retries + 1) (by simpa using hres)
        | false => simp [hb, hr, hrb] at hres

/-- The unit of work is invoked at most `fuel` times. -/
theorem transactGo_runUnit_le {σ : Type} (runner : Nat → σ → TransactionResult × σ)
    (env : Nat → AttemptOracle) (s : σ) :
    ∀ (fuel retries : Nat),
    (transactGo runner env s retries fuel).trace.count .runUnit ≤ fuel := by
  intro fuel
  induction fuel with
  | zero => intro retries; simp [transactGo]
  | succ n ih =>
    intro retries
    simp only [transactGo]
    cases hb : (env retries).beginOutcome with
    | busy =>
      simp only [List.count_append, count_runUnit_pre]
      have := ih (retries + 1)
      simp [List.count_cons, List.count_nil]
      omega
    | fail =>
      simp only [List.count_append, count_runUnit_pre]
      simp [List.count_eq_zero]
    | done =>
      rcases hr : runner retries s with ⟨r, s'⟩
      cases r with
      | COMMIT =>
        cases hc : (env retries).commitOutcome with
        | done =>
          simp only [List.count_append, count_runUnit_pre]
          simp [List.count_cons]
        | busy =>
          cases hrb : (env retries).rollbackOk with
          | true =>
            simp only [hrb, if_true, List.count_append, count_runUnit_pre]
            have := ih (retries + 1)
            simp [List.count_cons, List.count_nil]
            omega
          | false =>
            simp only [hrb, Bool.false_eq_true, if_false,
              List.count_append, count_runUnit_pre]
            simp [List.count_cons]
        | fail =>
          cases hrb : (env retries).rollbackOk with
          | true =>
            simp only [hrb, if_true, List.count_append, count_runUnit_pre]
            have := ih (retries + 1)
            simp [List.count_cons, List.count_nil]
            omega
          | false =>
            simp only [hrb, Bool.false_eq_true, if_false,
              List.count_append, count_runUnit_pre]
            simp [List.count_cons]
      | ROLLBACK =>
        cases hrb : (env retries).rollbackOk with
        | true =>
          simp only [hrb, if_true, List.count_append, count_runUnit_pre]
          simp [List.count_cons]
        | false =>
          simp only [hrb, Bool.false_eq_true, if_false,
            List.count_append, count_runUnit_pre]
          simp [List.count_cons]
      | ERROR =>
        simp only [List.count_append, count_runUnit_pre]
        simp [List.count_cons]
      | RETRY =>
        cases hrb : (env retries).rollbackOk with
        | true =>
          simp only [hrb, if_true, List.count_append, count_runUnit_pre]
          have := ih (retries + 1)
          simp [List.count_cons, List.count_nil]
          omega
        | false =>
          simp only [hrb, Bool.false_eq_true, if_false,
            List.count_append, count_runUnit_pre]
          simp [List.count_cons]

/-- The backoff sleeps requested before attempts `start, start+1, ...`:
no sleep before attempt 0, and mean `100 << (k-1)` ms before attempt
`k ≥ 1` (`RandomSleep(100 << (Retries - 1))`). -/
def sleepsFor (start n : Nat) : List Nat :=
  (List.range' start n).filterMap
    (fun k => if k = 0 then none else some (100 * 2 ^ (k - 1)))

theorem sleepsFor_zero (start : Nat) : sleepsFor start 0 = [] := rfl

theorem sleepsFor_succ (start n : Nat) :
    sleepsFor start (n + 1)
      = (if start = 0 then [] else [100 * 2 ^ (start - 1)])
          ++ sleepsFor (start + 1) n := by
  cases start with
  | zero => simp [sleepsFor, List.range'_succ]
  | succ m => simp [sleepsFor, List.range'_succ]

theorem sleepsFor_pos : ∀ (n s : Nat),
    sleepsFor (s + 1) n = (List.range' (s + 1) n).map (fun k => 100 * 2 ^ (k - 1)) := by
  intro n
  induction n with
  | zero => intro s; rfl
  | succ m ih =>
    intro s
    simp only [sleepsFor, List.range'_succ, List.filterMap_cons, List.map_cons]
    rw [if_neg (Nat.succ_ne_zero s)]
    have := ih (s + 1)
    simp only [sleepsFor] at this
    rw [this]

/-- The sleeps of one `transactGo` run follow the schedule determined by
the number of `BEGIN` attempts made. -/
theorem transactGo_sleeps {σ : Type} (runner : Nat → σ → TransactionResult × σ)
    (env : Nat → AttemptOracle) (s : σ) :
    ∀ (fuel retries : Nat),
    (transactGo runner env s retries fuel).trace.filterMap sleepOf
      = sleepsFor retries
          ((transactGo runner env s retries fuel).trace.count .stepBegin) := by
  intro fuel
  induction fuel with
  | zero => intro retries; simp [transactGo, sleepsFor_zero]
  | succ n ih =>
    intro retries
    have hpre0 : ∀ m : Nat, m = retries →
        (if m = 0 then ([] : List DBAction)
         else [DBAction.sleep (100 * 2 ^ (m - 1))]).filterMap sleepOf
        = (if m = 0 then [] else [100 * 2 ^ (m - 1)]) := by
      intro m _; split <;> simp [sleepOf]
    have hpreS := hpre0 retries rfl
    have hpreC : (if retries = 0 then ([] : List DBAction)
        else [DBAction.sleep (100 * 2 ^ (retries - 1))]).count DBAction.stepBegin
        = 0 := by
      split <;> simp [List.count_eq_zero]
    -- terminal attempts: trace is pre ++ acts with one BEGIN and no sleep
    have hterm : ∀ (acts : List DBAction),
        acts.filterMap sleepOf = [] →
        acts.count DBAction.stepBegin = 1 →
        ((if retries = 0 then ([] : List DBAction)
          else [DBAction.sleep (100 * 2 ^ (retries - 1))]) ++ acts).filterMap sleepOf
          = sleepsFor retries
            (((if retries = 0 then ([] : List DBAction)
               else [DBAction.sleep (100 * 2 ^ (retries - 1))]) ++ acts).count
              DBAction.stepBegin) := by
      intro acts hs hc
      simp only [List.filterMap_append, List.count_append, hpreS, hpreC, hs, hc]
      have h1 : (0 : Nat) + 1 = 0 + 1 := rfl
      rw [show (0 : Nat) + 1 = Nat.succ 0 from rfl]
      rw [sleepsFor_succ]
      simp [sleepsFor_zero]
    -- retried attempts: trace is pre ++ acts ++ recursive trace
    have hrec : ∀ (acts : List DBAction),
        acts.filterMap sleepOf = [] →
        acts.count DBAction.stepBegin = 1 →
        ((if retries = 0 then ([] : List DBAction)
          else [DBAction.sleep (100 * 2 ^ (retries - 1))]) ++ acts
          ++ (transactGo runner env s (retries + 1) n).trace).filterMap sleepOf
          = sleepsFor retries
            (((if retries = 0 then ([] : List DBAction)
               else [DBAction.sleep (100 * 2 ^ (retries - 1))]) ++ acts
              ++ (transactGo runner env s (retries + 1) n).trace).count
              DBAction.stepBegin) := by
      intro acts hs hc
      simp only [List.filterMap_append, List.count_append, hpreS, hpreC, hs, hc]
      rw [ih (retries + 1)]
      generalize (transactGo runner env s (retries + 1) n).trace.count
        DBAction.stepBegin = C
      have harith : 0 + 1 + C = C + 1 := by omega
      rw [harith, sleepsFor_succ]
      simp
    simp only [transactGo]
    cases hb : (env retries).beginOutcome with
    | busy =>
      have h := hrec [DBAction.stepBegin] (by simp [sleepOf]) (by simp [List.count_cons])
      simpa using h
    | fail =>
      have h := hterm [DBAction.stepBegin] (by simp [sleepOf]) (by simp [List.count_cons])
      simpa using h
    | done =>
      rcases hr : runner retries s with ⟨r, s'⟩
      cases r with
      | COMMIT =>
        cases hc : (env retries).commitOutcome with
        | done => exact hterm _ (by simp [sleepOf]) (by simp [List.count_cons])
        | busy =>
          cases hrb : (env retries).rollbackOk with
          | true =>
            simp only [hrb, if_true]
            exact hrec _ (by simp [sleepOf]) (by simp [List.count_cons])
          | false =>
            simp only [hrb, Bool.false_eq_true, if_false]
            exact hterm _ (by simp [sleepOf]) (by simp [List.count_cons])
        | fail =>
          cases hrb : (env retries).rollbackOk with
          | true =>
            simp only [hrb, if_true]
            exact hrec _ (by simp [sleepOf]) (by simp [List.count_cons])
          | false =>
            simp only [hrb, Bool.false_eq_true, if_false]
            exact hterm _ (by simp [sleepOf]) (by simp [List.count_cons])
      | ROLLBACK =>
        cases hrb : (env retries).rollbackOk with
        | true =>
          simp only [hrb, if_true]
          exact hterm _ (by simp [sleepOf]) (by simp [List.count_cons])
        | false =>
          simp only [hrb, Bool.false_eq_true, if_false]
          exact hterm _ (by simp [sleepOf]) (by simp [List.count_cons])
      | ERROR => exact hterm _ (by simp [sleepOf]) (by simp [List.count_cons])
      | RETRY =>
        cases hrb : (env retries).rollbackOk with
        | true =>
          simp only [hrb, if_true]
          exact hrec _ (by simp [sleepOf]) (by simp [List.count_cons])
        | false =>
          simp only [hrb, Bool.false_eq_true, if_false]
          exact hterm _ (by simp [sleepOf]) (by simp [List.count_cons])

/-- The summary message "could not complete Transact" is produced only by
exhausting the retry budget, in which case the result is `ERROR`, the
visible state is the initial one, and exactly `fuel` `BEGIN` attempts
were made. -/
theorem transactGo_exhausted {σ : Type} (runner : Nat → σ → TransactionResult × σ)
    (env : Nat → AttemptOracle) (s : σ) :
    ∀ (fuel retries : Nat),
    (transactGo runner env s retries fuel).message = some "could not complete Transact" →
    (transactGo runner env s retries fuel).result = .ERROR ∧
    (transactGo runner env s retries fuel).state = s ∧
    (transactGo runner env s retries fuel).trace.count .stepBegin = fuel := by
  intro fuel
  induction fuel with
  | zero => intro retries _; simp [transactGo]
  | succ n ih =>
    intro retries hmsg
    simp only [transactGo] at hmsg ⊢
    cases hb : (env retries).beginOutcome with
    | busy =>
      simp only [hb] at hmsg ⊢
      obtain ⟨h1, h2, h3⟩ := ih (retries + 1) (by simpa using hmsg)
      refine ⟨by simpa using h1, by simpa using h2, ?_⟩
      simp only [List.count_append, count_runUnit_pre, List.count_cons, List.count_nil]
      have hpreC : (if retries = 0 then ([] : List DBAction)
          else [DBAction.sleep (100 * 2 ^ (retries - 1))]).count DBAction.stepBegin
          = 0 := by
        split <;> simp [List.count_eq_zero]
      simp only [hpreC]
      simp only [beq_self_eq_true, if_true]
      omega
    | fail =>
      simp only [hb] at hmsg
      have hEq : ("Transact BEGIN" : String) = "could not complete Transact" := by
        simpa using hmsg
      exact absurd hEq (by decide)
    | done =>
      rcases hr : runner retries s with ⟨r, s'⟩
      have hnotRb : ("Transact ROLLBACK" : String) ≠ "could not complete Transact" := by
        decide
      cases r with
      | COMMIT =>
        cases hc : (env retries).commitOutcome with
        | done => simp [hb, hr, hc] at hmsg
        | busy =>
          cases hrb : (env retries).rollbackOk with
          | true =>
            simp only [hb, hr, hc, hrb, if_true] at hmsg ⊢
            obtain ⟨h1, h2, h3⟩ := ih (retries + 1) (by simpa using hmsg)
            refine ⟨by simpa using h1, by simpa using h2, ?_⟩
            simp only [List.count_append, List.count_cons, List.count_nil]
            have hpreC : (if retries = 0 then ([] : List DBAction)
                else [DBAction.sleep (100 * 2 ^ (retries - 1))]).count DBAction.stepBegin
                = 0 := by
              split <;> simp [List.count_eq_zero]
            simp only [hpreC]
            simp [h3]
            omega
          | false =>
            simp only [hb, hr, hc, hrb, Bool.false_eq_true, if_false] at hmsg
            exact absurd (by simpa using hmsg) hnotRb
        | fail =>
          cases hrb : (env retries).rollbackOk with
          | true =>
            simp only [hb, hr, hc, hrb, if_true] at hmsg ⊢
            obtain ⟨h1, h2, h3⟩ := ih (retries + 1) (by simpa using hmsg)
            refine ⟨by simpa using h1, by simpa using h2, ?_⟩
            simp only [List.count_append, List.count_cons, List.count_nil]
            have hpreC : (if retries = 0 then ([] : List DBAction)
                else [DBAction.sleep (100 * 2 ^ (retries - 1))]).count DBAction.stepBegin
                = 0 := by
              split <;> simp [List.count_eq_zero]
            simp only [hpreC]
            simp [h3]
            omega
          | false =>
            simp only [hb, hr, hc, hrb, Bool.false_eq_true, if_false] at hmsg
            exact absurd (by simpa using hmsg) hnotRb
      | ROLLBACK =>
        cases hrb : (env retries).rollbackOk with
        | true => simp [hb, hr, hrb] at hmsg
        | false =>
          simp only [hb, hr, hrb, Bool.false_eq_true, if_false] at hmsg
          exact absurd (by simpa using hmsg) hnotRb
      | ERROR => simp [hb, hr] at hmsg
      | RETRY =>
        cases hrb : (env retries).rollbackOk with
        | true =>
          simp only [hb, hr, hrb, if_true] at hmsg ⊢
          obtain ⟨h1, h2, h3⟩ := ih (retries + 1) (by simpa using hmsg)
          refine ⟨by simpa using h1, by simpa using h2, ?_⟩
          simp only [List.count_append, List.count_cons, List.count_nil]
          have hpreC : (if retries = 0 then ([] : List DBAction)
              else [DBAction.sleep (100 * 2 ^ (retries - 1))]).count DBAction.stepBegin
              = 0 := by
            split <;> simp [List.count_eq_zero]
          simp only [hpreC]
          simp [h3]
          omega
        | false =>
          simp only [hb, hr, hrb, Bool.false_eq_true, if_false] at hmsg
          exact absurd (by simpa using hmsg) hnotRb

/-- If the unit of work returns `ERROR` on every attempt and every state,
`Transact` returns `ERROR` with the initial state visible. -/
theorem transactGo_always_error {σ : Type} (runner : Nat → σ → TransactionResult × σ)
    (env : Nat → AttemptOracle) (s : σ)
    (hrun : ∀ k s', (runner k s').1 = .ERROR) :
    ∀ (fuel retries : Nat),
    (transactGo runner env s retries fuel).result = .ERROR ∧
    (transactGo runner env s retries fuel).state = s := by
  intro fuel
  induction fuel with
  | zero => intro retries; simp [transactGo]
  | succ n ih =>
    intro retries
    simp only [transactGo]
    cases hb : (env retries).beginOutcome with
    | busy =>
      obtain ⟨h1, h2⟩ := ih (retries + 1)
      exact ⟨by simpa using h1, by simpa using h2⟩
    | fail => simp
    | done =>
      rcases hr : runner retries s with ⟨r, s'⟩
      have := hrun retries s
      rw [hr] at this
      simp only at this
      subst this
      simp [hr]

/-- With fuel left, an iteration's trace always starts with the backoff
sleep (for attempts after the first) followed by a `BEGIN` attempt. -/
theorem transactGo_trace_shape {σ : Type} (runner : Nat → σ → TransactionResult × σ)
    (env : Nat → AttemptOracle) (s : σ) (fuel retries : Nat) :
    ∃ rest, (transactGo runner env s retries (fuel + 1)).trace
      = (if retries = 0 then [] else [DBAction.sleep (100 * 2 ^ (retries - 1))])
          ++ DBAction.stepBegin :: rest := by
  simp only [transactGo]
  cases hb : (env retries).beginOutcome with
  | busy =>
    exact ⟨(transactGo runner env s (retries + 1) fuel).trace, by simp⟩
  | fail => exact ⟨[], by simp⟩
  | done =>
    rcases hr : runner retries s with ⟨r, s'⟩
    cases r with
    | COMMIT =>
      cases hc : (env retries).commitOutcome with
      | done => exact ⟨[DBAction.runUnit, DBAction.stepCommit], by simp⟩
      | busy =>
        cases hrb : (env retries).rollbackOk with
        | true =>
          exact ⟨[DBAction.runUnit, DBAction.stepCommit, DBAction.stepRollback]
            ++ (transactGo runner env s (retries + 1) fuel).trace, by simp [hrb]⟩
        | false =>
          exact ⟨[DBAction.runUnit, DBAction.stepCommit, DBAction.stepRollback],
            by simp [hrb]⟩
      | fail =>
        cases hrb : (env retries).rollbackOk with
        | true =>
          exact ⟨[DBAction.runUnit, DBAction.stepCommit, DBAction.stepRollback]
            ++ (transactGo runner env s (retries + 1) fuel).trace, by simp [hrb]⟩
        | false =>
          exact ⟨[DBAction.runUnit, DBAction.stepCommit, DBAction.stepRollback],
            by simp [hrb]⟩
    | ROLLBACK =>
      cases hrb : (env retries).rollbackOk with
      | true => exact ⟨[DBAction.runUnit, DBAction.stepRollback], by simp [hrb]⟩
      | false => exact ⟨[DBAction.runUnit, DBAction.stepRollback], by simp [hrb]⟩
    | ERROR => exact ⟨[DBAction.runUnit, DBAction.stepRollback], by simp⟩
    | RETRY =>
      cases hrb : (env retries).rollbackOk with
      | true =>
        exact ⟨[DBAction.runUnit, DBAction.stepRollback]
          ++ (transactGo runner env s (retries + 1) fuel).trace, by simp [hrb]⟩
      | false => exact ⟨[DBAction.runUnit, DBAction.stepRollback], by simp [hrb]⟩

/-! ## Claim C3: retry budget, backoff and exhaustion -/

/-- C3 counterexample: when every `BEGIN` fails with a temporary
(busy) error, all 6 attempts are exhausted and `Transact` returns a
terminal `ERROR` with the summary message — but the last action taken on
the store is the failed `BEGIN`, not a rollback (a rollback only closes
attempts that successfully began). -/
theorem transact_last_action_counterexample :
    (Transact (fun _ (s : Nat) => (.COMMIT, s))
        (fun _ => ⟨.busy, .done, true⟩) 0).message
      = some "could not complete Transact" ∧
    (Transact (fun _ (s : Nat) => (.COMMIT, s))
        (fun _ => ⟨.busy, .done, true⟩) 0).result = .ERROR ∧
    (Transact (fun _ (s : Nat) => (.COMMIT, s))
        (fun _ => ⟨.busy, .done, true⟩) 0).trace.getLast? = some .stepBegin ∧
    (Transact (fun _ (s : Nat) => (.COMMIT, s))
        (fun _ => ⟨.busy, .done, true⟩) 0).trace.getLast? ≠ some .stepRollback := by
  decide

/-- C3 (amended): `Transact` runs the unit of work at most 6 times; the
sleeps performed are exactly one before each attempt after the first,
with mean `100 · 2^(k-1)` ms before attempt `k` (mean doubling each
attempt starting at 100 ms); and when the retry budget is exhausted (the
summary message "could not complete Transact" is produced) the result is
a terminal `ERROR` after exactly 6 `BEGIN` attempts, with the visible
store state unchanged (every begun transaction was rolled back; the last
store action is a rollback only when the final attempt's `BEGIN`
succeeded). -/
theorem transact_retry_budget_spec :
    ∀ (σ : Type) (runner : Nat → σ → TransactionResult × σ)
      (env : Nat → AttemptOracle) (s : σ),
    (Transact runner env s).trace.count .runUnit ≤ MaxRetries ∧
    (Transact runner env s).trace.filterMap sleepOf
      = (List.range' 1 ((Transact runner env s).trace.count .stepBegin - 1)).map
          (fun k => 100 * 2 ^ (k - 1)) ∧
    ((Transact runner env s).message = some "could not complete Transact" →
      (Transact runner env s).result = .ERROR ∧
      (Transact runner env s).state = s ∧
      (Transact runner env s).trace.count .stepBegin = MaxRetries) := by
  intro σ runner env s
  refine ⟨transactGo_runUnit_le runner env s MaxRetries 0, ?_,
    transactGo_exhausted runner env s MaxRetries 0⟩
  have h := transactGo_sleeps runner env s MaxRetries 0
  simp only [Transact]
  rw [h]
  cases hn : (transactGo runner env s 0 MaxRetries).trace.count DBAction.stepBegin with
  | zero => simp [sleepsFor_zero]
  | succ m =>
    rw [sleepsFor_succ]
    simp only [if_pos rfl, List.nil_append]
    rw [sleepsFor_pos m 0]
    simp

/-- Witness for C3: the exhaustion clause applied to the all-busy
environment, with its hypothesis discharged by evaluation. -/
theorem transact_retry_budget_witness :
    (Transact (fun _ (s : Nat) => (.RETRY, s))
        (fun _ => ⟨.done, .done, true⟩) 0).result = .ERROR ∧
    (Transact (fun _ (s : Nat) => (.RETRY, s))
        (fun _ => ⟨.done, .done, true⟩) 0).state = 0 ∧
    (Transact (fun _ (s : Nat) => (.RETRY, s))
        (fun _ => ⟨.done, .done, true⟩) 0).trace.count .stepBegin = MaxRetries :=
  (transact_retry_budget_spec Nat (fun _ s => (.RETRY, s))
    (fun _ => ⟨.done, .done, true⟩) 0).2.2 (by decide)


/-- One-step equation: a begun attempt whose unit requests `RETRY` rolls
back and continues with the next attempt. -/
theorem transactGo_retry_eq {σ : Type} (runner : Nat → σ → TransactionResult × σ)
    (env : Nat → AttemptOracle) (s s' : σ) (m : Nat)
    (hb : (env 0).beginOutcome = .done) (hr : runner 0 s = (.RETRY, s'))
    (hrb : (env 0).rollbackOk = true) :
    transactGo runner env s 0 (m + 1)
      = ⟨(transactGo runner env s 1 m).result, (transactGo runner env s 1 m).state,
         [DBAction.stepBegin, DBAction.runUnit, DBAction.stepRollback]
           ++ (transactGo runner env s 1 m).trace,
         (transactGo runner env s 1 m).message⟩ := by
  conv_lhs => rw [transactGo]
  simp [hb, hr, hrb]

/-- One-step equation: a begun attempt whose unit returns `COMMIT` but
whose finalize step fails (with any error code) rolls back and continues
with the next attempt. -/
theorem transactGo_commitfail_eq {σ : Type} (runner : Nat → σ → TransactionResult × σ)
    (env : Nat → AttemptOracle) (s s' : σ) (m : Nat)
    (hb : (env 0).beginOutcome = .done) (hr : runner 0 s = (.COMMIT, s'))
    (hc : (env 0).commitOutcome ≠ .done) (hrb : (env 0).rollbackOk = true) :
    transactGo runner env s 0 (m + 1)
      = ⟨(transactGo runner env s 1 m).result, (transactGo runner env s 1 m).state,
         [DBAction.stepBegin, DBAction.runUnit, DBAction.stepCommit,
          DBAction.stepRollback] ++ (transactGo runner env s 1 m).trace,
         (transactGo runner env s 1 m).message⟩ := by
  conv_lhs => rw [transactGo]
  cases hcv : (env 0).commitOutcome with
  | done => exact absurd hcv hc
  | busy => simp [hb, hr, hcv, hrb]
  | fail => simp [hb, hr, hcv, hrb]

/-! ## Claim C4: outcome handling and contention classification -/

/-- C4 counterexample: on attempt 0 the unit returns `COMMIT` and the
finalize (`COMMIT`) step fails with a **non-transient** error code, yet
`Transact` rolls back and re-runs the unit (the source's `COMMIT` case
does not consult the error code before `continue`), and the second
attempt commits — the claimed mapping of every non-busy/locked finalize
failure to a terminal `Error` is false. -/
theorem transact_commit_retry_counterexample :
    ((fun k => if k = 0 then (⟨.done, .fail, true⟩ : AttemptOracle)
               else ⟨.done, .done, true⟩) 0).commitOutcome = .fail ∧
    (Transact (fun _ (s : Nat) => (.COMMIT, s + 1))
        (fun k => if k = 0 then ⟨.done, .fail, true⟩ else ⟨.done, .done, true⟩)
        0).result = .COMMIT ∧
    (Transact (fun _ (s : Nat) => (.COMMIT, s + 1))
        (fun k => if k = 0 then ⟨.done, .fail, true⟩ else ⟨.done, .done, true⟩)
        0).trace.count .runUnit = 2 := by
  decide

/-- C4 (amended): for the unit of work's result on the first attempt:
`ROLLBACK` and `ERROR` cause an immediate rollback and return of that
same outcome without re-running the unit; `RETRY` causes a rollback
followed by a re-run; and when the unit returns `COMMIT` and the
finalize step fails, `Transact` rolls back and retries the whole
transaction **regardless of the store error code** (busy, locked or
otherwise).  The busy/locked contention classification is applied by
`SetTransactionError`, which the unit of work uses to map store errors
it encounters to `RETRY` (codes 5/6) or `ERROR` (anything else), with
the underlying error text retained for diagnostics. -/
theorem transact_outcomes_spec :
    ∀ (σ : Type) (runner : Nat → σ → TransactionResult × σ)
      (env : Nat → AttemptOracle) (s : σ),
    ((env 0).beginOutcome = .done → (runner 0 s).1 = .ROLLBACK →
      (env 0).rollbackOk = true →
      (Transact runner env s).result = .ROLLBACK ∧
      (Transact runner env s).state = s ∧
      (Transact runner env s).trace = [.stepBegin, .runUnit, .stepRollback]) ∧
    ((env 0).beginOutcome = .done → (runner 0 s).1 = .ERROR →
      (Transact runner env s).result = .ERROR ∧
      (Transact runner env s).state = s ∧
      (Transact runner env s).trace = [.stepBegin, .runUnit, .stepRollback]) ∧
    ((env 0).beginOutcome = .done → (runner 0 s).1 = .RETRY →
      (env 0).rollbackOk = true →
      ∃ rest, (Transact runner env s).trace
        = .stepBegin :: .runUnit :: .stepRollback :: .sleep 100 :: .stepBegin :: rest) ∧
    ((env 0).beginOutcome = .done → (runner 0 s).1 = .COMMIT →
      (env 0).commitOutcome ≠ .done → (env 0).rollbackOk = true →
      ∃ rest, (Transact runner env s).trace
        = .stepBegin :: .runUnit :: .stepCommit :: .stepRollback ::
            .sleep 100 :: .stepBegin :: rest) ∧
    (∀ e c code, ((SetTransactionError e c code).1 = .RETRY ↔ (code = 5 ∨ code = 6)) ∧
      (SetTransactionError e c code).2 = e ++ " [" ++ c ++ "]") := by
  intro σ runner env s
  have hshape := transactGo_trace_shape runner env s 4 1
  have hunfold : Transact runner env s = transactGo runner env s 0 (5 + 1) := rfl
  refine ⟨?_, ?_, ?_, ?_, ?_⟩
  · intro hb hr1 hrb
    rcases hr : runner 0 s with ⟨r, s'⟩
    rw [hr] at hr1
    simp only at hr1
    subst hr1
    rw [hunfold]
    simp only [transactGo, hb, hr, hrb]
    simp
  · intro hb hr1
    rcases hr : runner 0 s with ⟨r, s'⟩
    rw [hr] at hr1
    simp only at hr1
    subst hr1
    rw [hunfold]
    simp only [transactGo, hb, hr]
    simp
  · intro hb hr1 hrb
    rcases hr : runner 0 s with ⟨r, s'⟩
    rw [hr] at hr1
    simp only at hr1
    subst hr1
    rw [hunfold, transactGo_retry_eq runner env s s' 5 hb hr hrb]
    obtain ⟨rest, hrest⟩ := hshape
    refine ⟨rest, ?_⟩
    have h5 : (transactGo runner env s 1 5).trace
        = (transactGo runner env s 1 (4 + 1)).trace := rfl
    simp only [h5, hrest]
    simp
  · intro hb hr1 hcne hrb
    rcases hr : runner 0 s with ⟨r, s'⟩
    rw [hr] at hr1
    simp only at hr1
    subst hr1
    rw [hunfold, transactGo_commitfail_eq runner env s s' 5 hb hr hcne hrb]
    obtain ⟨rest, hrest⟩ := hshape
    refine ⟨rest, ?_⟩
    have h5 : (transactGo runner env s 1 5).trace
        = (transactGo runner env s 1 (4 + 1)).trace := rfl
    simp only [h5, hrest]
    simp
  · intro e c code
    constructor
    · simp only [SetTransactionError, TemporaryErrorCode]
      constructor
      · intro h
        by_contra hcontra
        push_neg at hcontra
        have h5 : (code == 5) = false := by simp [hcontra.1]
        have h6 : (code == 6) = false := by simp [hcontra.2]
        simp [h5, h6] at h
      · intro h
        rcases h with h | h <;> subst h <;> simp
    · simp [SetTransactionError, SetErrorMessage]

/-- Witness for C4: the `ROLLBACK` clause applied to a concrete unit of
work that requests a rollback on a begun transaction. -/
theorem transact_outcomes_witness :
    (Transact (fun _ (s : Nat) => (.ROLLBACK, s + 7))
        (fun _ => ⟨.done, .done, true⟩) 3).result = .ROLLBACK ∧
    (Transact (fun _ (s : Nat) => (.ROLLBACK, s + 7))
        (fun _ => ⟨.done, .done, true⟩) 3).state = 3 ∧
    (Transact (fun _ (s : Nat) => (.ROLLBACK, s + 7))
        (fun _ => ⟨.done, .done, true⟩) 3).trace
      = [.stepBegin, .runUnit, .stepRollback] :=
  (transact_outcomes_spec Nat (fun _ s => (.ROLLBACK, s + 7))
    (fun _ => ⟨.done, .done, true⟩) 3).1 rfl rfl rfl

/-! ## Helper lemmas for the Report Query Engine -/

theorem reportRun_fold (f : String → List REvent) (g : String → Bool) :
    ∀ (l : List String) (acc : List REvent) (b : Bool),
    ((l.foldl (fun a p => (a.1 ++ f p, a.2 && g p)) (acc, b)).1 = acc ++ l.flatMap f) ∧
    ((l.foldl (fun a p => (a.1 ++ f p, a.2 && g p)) (acc, b)).2 = (b && l.all g)) := by
  intro l
  induction l with
  | nil => intro acc b; simp
  | cons p ps ih =>
    intro acc b
    simp only [List.foldl_cons, List.flatMap_cons, List.all_cons]
    obtain ⟨h1, h2⟩ := ih (acc ++ f p) (b && g p)
    constructor
    · rw [h1, List.append_assoc]
    · rw [h2, Bool.and_assoc]

/-- The events of one `Report` run decompose path by path: every
enumerated path contributes its own events regardless of local errors at
other paths. -/
theorem reportRun_events (fsR : String → Option String)
    (fsM : String → Option (Int × Nat)) (db : DBState)
    (cb : String → Nat → Nat → String → String → Bool) :
    (ReportRun fsR fsM db cb).1
      = (distinctPaths db).flatMap
          (fun p => .enumPath p :: (reportOnePath fsR fsM db cb p).1) ∧
    (ReportRun fsR fsM db cb).2
      = (distinctPaths db).all (fun p => (reportOnePath fsR fsM db cb p).2) := by
  have h := reportRun_fold
    (fun p => REvent.enumPath p :: (reportOnePath fsR fsM db cb p).1)
    (fun p => (reportOnePath fsR fsM db cb p).2)
    (distinctPaths db) [] true
  simp only [List.nil_append, Bool.true_and] at h
  exact ⟨h.1, h.2⟩

/-- The fold of the pairwise-max accumulator starting from `some a`. -/
theorem foldl_maxOpt_some : ∀ (l : List Nat) (a : Nat),
    l.foldl (fun acc x => match acc with
      | none => some x
      | some b => some (max b x)) (some a)
      = some (l.foldl max a) := by
  intro l
  induction l with
  | nil => intro a; rfl
  | cons x xs ih => intro a; simp only [List.foldl_cons]; exact ih (max a x)

theorem foldl_max_le : ∀ (l : List Nat) (a : Nat),
    a ≤ l.foldl max a ∧ ∀ x ∈ l, x ≤ l.foldl max a := by
  intro l
  induction l with
  | nil => intro a; simp
  | cons y ys ih =>
    intro a
    simp only [List.foldl_cons]
    obtain ⟨h1, h2⟩ := ih (max a y)
    refine ⟨le_trans (le_max_left a y) h1, ?_⟩
    intro x hx
    rcases List.mem_cons.1 hx with hx | hx
    · subst hx; exact le_trans (le_max_right a x) h1
    · exact h2 x hx

theorem foldl_max_mem : ∀ (l : List Nat) (a : Nat),
    l.foldl max a = a ∨ l.foldl max a ∈ l := by
  intro l
  induction l with
  | nil => intro a; left; rfl
  | cons y ys ih =>
    intro a
    simp only [List.foldl_cons]
    rcases ih (max a y) with h | h
    · rw [h]
      rcases Nat.le_total a y with hay | hya
      · right; rw [max_eq_right hay]; exact List.mem_cons_self _ _
      · left; rw [max_eq_left hya]
    · right; exact List.mem_cons_of_mem _ h

/-- Characterization of the `ORDER BY id DESC LIMIT 1` fingerprint
lookup: it returns exactly the greatest id among the rows whose path and
fingerprint match, and `none` iff no row matches. -/
theorem selectFileId_spec (db : DBState) (p : String) (m : Int) (z : Nat) :
    ∀ fid, selectFileId db p m z = some fid ↔
      ((∃ fr ∈ db.files, fr.id = fid ∧ fr.path = p ∧ fr.mtime = m ∧ fr.size = z) ∧
       (∀ fr ∈ db.files, (fr.path = p ∧ fr.mtime = m ∧ fr.size = z) → fr.id ≤ fid)) := by
  intro fid
  have hrows : ∀ fr, fr ∈ db.files.filter
      (fun fr => fr.path == p && fr.mtime == m && fr.size == z) ↔
      (fr ∈ db.files ∧ fr.path = p ∧ fr.mtime = m ∧ fr.size = z) := by
    intro fr
    rw [List.mem_filter]
    constructor
    · rintro ⟨h1, h2⟩
      simp only [Bool.and_eq_true, beq_iff_eq] at h2
      exact ⟨h1, h2.1.1, h2.1.2, h2.2⟩
    · rintro ⟨h1, h2, h3, h4⟩
      refine ⟨h1, ?_⟩
      simp [h2, h3, h4]
  cases hmat : db.files.filter
      (fun fr => fr.path == p && fr.mtime == m && fr.size == z) with
  | nil =>
    have hsel : selectFileId db p m z = none := by
      simp [selectFileId, hmat]
    rw [hsel]
    simp only [false_iff, reduceCtorEq]
    rintro ⟨⟨fr, hmem, hid, hp, hm, hz⟩, _⟩
    have : fr ∈ ([] : List FileRow) := hmat ▸ (hrows fr).2 ⟨hmem, hp, hm, hz⟩
    simp at this
  | cons fr0 rest =>
    have hsel : selectFileId db p m z
        = some ((rest.map (fun fr => fr.id)).foldl max fr0.id) := by
      simp only [selectFileId, hmat, List.foldl_cons]
      rw [show (List.foldl (fun acc fr => match acc with
          | none => some fr.id
          | some b => some (max b fr.id)) (some fr0.id) rest) =
        (List.foldl (fun acc x => match acc with
          | none => some x
          | some b => some (max b x)) (some fr0.id) (rest.map (fun fr => fr.id)))
        from by rw [List.foldl_map]]
      exact foldl_maxOpt_some _ _
    rw [hsel]
    set v := (rest.map (fun fr => fr.id)).foldl max fr0.id with hv
    have hvmem : v = fr0.id ∨ v ∈ rest.map (fun fr => fr.id) :=
      foldl_max_mem _ _
    have hvbound := foldl_max_le (rest.map (fun fr => fr.id)) fr0.id
    have hvrow : ∃ fr ∈ db.files, fr.id = v ∧ fr.path = p ∧ fr.mtime = m ∧ fr.size = z := by
      rcases hvmem with h | h
      · have : fr0 ∈ db.files.filter
            (fun fr => fr.path == p && fr.mtime == m && fr.size == z) := by
          rw [hmat]; exact List.mem_cons_self _ _
        obtain ⟨h1, h2, h3, h4⟩ := (hrows fr0).1 this
        exact ⟨fr0, h1, h.symm, h2, h3, h4⟩
      · obtain ⟨fr, hfr, hfrid⟩ := List.mem_map.1 h
        have : fr ∈ db.files.filter
            (fun fr => fr.path == p && fr.mtime == m && fr.size == z) := by
          rw [hmat]; exact List.mem_cons_of_mem _ hfr
        obtain ⟨h1, h2, h3, h4⟩ := (hrows fr).1 this
        exact ⟨fr, h1, hfrid, h2, h3, h4⟩
    have hvbd : ∀ fr ∈ db.files, (fr.path = p ∧ fr.mtime = m ∧ fr.size = z) →
        fr.id ≤ v := by
      intro fr hmemf hcond
      have : fr ∈ db.files.filter
          (fun fr => fr.path == p && fr.mtime == m && fr.size == z) :=
        (hrows fr).2 ⟨hmemf, hcond.1, hcond.2.1, hcond.2.2⟩
      rw [hmat] at this
      rcases List.mem_cons.1 this with h | h
      · rw [h]; exact hvbound.1
      · exact hvbound.2 fr.id (List.mem_map.2 ⟨fr, h, rfl⟩)
    constructor
    · intro h
      have hfv : fid = v := by injection h with h'; omega
      subst hfv
      exact ⟨hvrow, hvbd⟩
    · rintro ⟨⟨fr, hmemf, hid, hcond⟩, hbound⟩
      have h1 : fr.id ≤ v := hvbd fr hmemf hcond
      obtain ⟨fr', hmem', hid', hcond'⟩ := hvrow
      have h2 : fr'.id ≤ fid := hbound fr' hmem' hcond'
      have : v = fid := by omega
      rw [this]

theorem streamFindings_mem (cb : String → Nat → Nat → String → String → Bool)
    (p : String) : ∀ (l : List ReportRow) (e : REvent),
    e ∈ streamFindings cb p l →
    ∃ rr ∈ l, e = .finding p rr.line rr.column rr.tool rr.message := by
  intro l
  induction l with
  | nil => intro e he; simp [streamFindings] at he
  | cons rr rest ih =>
    intro e he
    simp only [streamFindings, List.mem_cons] at he
    rcases he with he | he
    · exact ⟨rr, List.mem_cons_self _ _, he⟩
    · split at he
      · obtain ⟨rr', h1, h2⟩ := ih e he
        exact ⟨rr', List.mem_cons_of_mem _ h1, h2⟩
      · simp at he

theorem findingRows_mem (db : DBState) (fid : Nat) :
    ∀ rr ∈ findingRows db fid, rr ∈ db.reports ∧ rr.file = fid := by
  have hgen : ∀ (l : List ReportRow) (acc : List ReportRow) (x : ReportRow),
      x ∈ l.foldl (fun acc rr =>
        if acc.any (fun rr' => rr'.line == rr.line && rr'.column == rr.column
            && rr'.tool == rr.tool && rr'.message == rr.message)
        then acc else acc ++ [rr]) acc →
      x ∈ acc ∨ x ∈ l := by
    intro l
    induction l with
    | nil => intro acc x hx; left; exact hx
    | cons rr rest ih =>
      intro acc x hx
      simp only [List.foldl_cons] at hx
      rcases ih _ x hx with h | h
      · split at h
        · left; exact h
        · rcases List.mem_append.1 h with h | h
          · left; exact h
          · right; simp at h; subst h; exact List.mem_cons_self _ _
      · right; exact List.mem_cons_of_mem _ h
  intro rr hrr
  have := hgen _ [] rr hrr
  rcases this with h | h
  · simp at h
  · have := List.mem_filter.1 h
    exact ⟨this.1, by simpa using this.2⟩

/-! ## Claim C5: the Report Query Engine -/

/-- Store for the C5 counterexample: one file row for `"/a"`, no
findings at all. -/
def dbC5 : DBState := ⟨[⟨1, "/a", 1, 1⟩], [], 2, 1⟩

/-- Resolver oracle for the C5 counterexample. -/
def fsR5 : String → Option String := fun p => if p = "/a" then some "/a" else none

/-- Metadata oracle for the C5 counterexample: the current fingerprint
of `"/a"` is `(2, 2)`, different from the stored row's `(1, 1)`. -/
def fsM5 : String → Option (Int × Nat) :=
  fun p => if p = "/a" then some ((2 : Int), (2 : Nat)) else none

/-- C5 counterexample: the engine's enumeration query is
`SELECT DISTINCT path FROM files`, not "paths that have at least one
stored finding": with one file row and an empty reports table, the run
still enumerates `"/a"` and emits a "no matching report" condition,
returning `false`, whereas the claim predicts an empty enumeration. -/
theorem report_enum_counterexample :
    dbC5.reports = [] ∧
    (ReportRun fsR5 fsM5 dbC5 (fun _ _ _ _ _ => true)).1
      = [.enumPath "/a", .errNoReport "/a"] ∧
    (ReportRun fsR5 fsM5 dbC5 (fun _ _ _ _ _ => true)).2 = false := by
  decide

/-- C5 (amended): the Report Query Engine enumerates exactly the
distinct canonical paths **present in the file table** (whether or not
they have any stored finding), in lexicographic order; for each
enumerated path it selects the FileRecord row whose (mtime, size)
fingerprint equals the file's current on-disk fingerprint, choosing the
highest id among rows with that fingerprint; if no row matches it emits
a local "no matching report" condition for that path and continues with
the next path (each path contributes its own events independently); and
every finding streamed for a path comes from a report row attached to
the selected (current-fingerprint) row, so a query performed while
fingerprint B is current returns only findings attached to the row
carrying fingerprint B. -/
theorem report_query_spec :
    ∀ (fsR : String → Option String) (fsM : String → Option (Int × Nat))
      (db : DBState) (cb : String → Nat → Nat → String → String → Bool),
    ((ReportRun fsR fsM db cb).1
      = (distinctPaths db).flatMap
          (fun p => .enumPath p :: (reportOnePath fsR fsM db cb p).1)) ∧
    (List.Pairwise (fun a b => strLt a b = true) (distinctPaths db)) ∧
    (∀ p, p ∈ distinctPaths db ↔ ∃ fr ∈ db.files, fr.path = p) ∧
    (∀ p fid, selectFileId db p (mkFileIdentification fsR fsM p).Mtime
        (mkFileIdentification fsR fsM p).Size = some fid ↔
      ((∃ fr ∈ db.files, fr.id = fid ∧ fr.path = p ∧
          fr.mtime = (mkFileIdentification fsR fsM p).Mtime ∧
          fr.size = (mkFileIdentification fsR fsM p).Size) ∧
       (∀ fr ∈ db.files, (fr.path = p ∧
          fr.mtime = (mkFileIdentification fsR fsM p).Mtime ∧
          fr.size = (mkFileIdentification fsR fsM p).Size) → fr.id ≤ fid))) ∧
    (∀ p, (mkFileIdentification fsR fsM p).Valid = true →
      selectFileId db p (mkFileIdentification fsR fsM p).Mtime
        (mkFileIdentification fsR fsM p).Size = none →
      reportOnePath fsR fsM db cb p = ([.errNoReport p], false)) ∧
    (∀ p fid, (mkFileIdentification fsR fsM p).Valid = true →
      selectFileId db p (mkFileIdentification fsR fsM p).Mtime
        (mkFileIdentification fsR fsM p).Size = some fid →
      ∀ e ∈ (reportOnePath fsR fsM db cb p).1,
        ∃ rr ∈ db.reports, rr.file = fid ∧
          e = .finding p rr.line rr.column rr.tool rr.message) := by
  intro fsR fsM db cb
  refine ⟨(reportRun_events fsR fsM db cb).1, sortDedup_pairwise _, ?_, ?_, ?_, ?_⟩
  · intro p
    rw [distinctPaths, mem_sortDedup, List.mem_map]
  · intro p fid
    exact selectFileId_spec db p _ _ fid
  · intro p hval hnone
    simp [reportOnePath, hval, hnone]
  · intro p fid hval hsel e he
    simp only [reportOnePath, hval, Bool.not_true, Bool.false_eq_true,
      if_false, hsel] at he
    simp only [not_true_eq_false, if_false] at he
    obtain ⟨rr, hrr, hee⟩ := streamFindings_mem cb p _ e he
    obtain ⟨h1, h2⟩ := findingRows_mem db fid rr hrr
    exact ⟨rr, h1, h2, hee⟩

/-- Store for the C5 witness: two rows for `"/a"` with different
fingerprints, each with one finding; the current fingerprint `(2, 2)`
matches the row with id 2. -/
def dbC5w : DBState :=
  ⟨[⟨1, "/a", 1, 1⟩, ⟨2, "/a", 2, 2⟩],
   [⟨1, 1, 10, 20, "t", "stale"⟩, ⟨2, 2, 30, 40, "t", "fresh"⟩], 3, 3⟩

/-- Witness for C5: the masking clause applied at the two-row store —
the streamed finding for `"/a"` under current fingerprint `(2, 2)` comes
from a report row attached to the row with id 2. -/
theorem report_query_spec_witness :
    ∃ rr ∈ dbC5w.reports, rr.file = 2 ∧
      REvent.finding "/a" 30 40 "t" "fresh"
        = .finding "/a" rr.line rr.column rr.tool rr.message :=
  (report_query_spec fsR5 fsM5 dbC5w (fun _ _ _ _ _ => true)).2.2.2.2.2
    "/a" 2 (by decide) (by decide)
    (REvent.finding "/a" 30 40 "t" "fresh") (by decide)

/-! ## Claim C6: scoping of local input errors -/

/-- Resolver oracle for C6: only `"q"` resolves (to `"/q"`); the touched
path `"p"` is unresolvable. -/
def fsR6 : String → Option String := fun p => if p = "q" then some "/q" else none

/-- Metadata oracle for C6. -/
def fsM6 : String → Option (Int × Nat) :=
  fun p => if p = "/q" then some ((7 : Int), (9 : Nat)) else none

/-- C6 counterexample: a batch with one staged finding for the
resolvable file `"q"` commits fine on its own, but adding
`MarkForProcessing("p")` with `"p"` unresolvable makes the whole Commit
abort (`MarkAsProcessed` returns `ERROR`): the finding for `"q"` is not
stored and `Commit` returns false — the unresolvable touched path is not
scoped to that single file. -/
theorem commit_abort_counterexample :
    CommitModel fsR6 fsM6 (fun _ _ => .done) (fun _ => ⟨.done, .done, true⟩)
      [.record "q" 1 2 "t" "m"] emptyDB
      = (true, ⟨[⟨1, "/q", 7, 9⟩], [⟨1, 1, 1, 2, "t", "m"⟩], 2, 2⟩) ∧
    CommitModel fsR6 fsM6 (fun _ _ => .done) (fun _ => ⟨.done, .done, true⟩)
      [.record "q" 1 2 "t" "m", .mark "p"] emptyDB = (false, emptyDB) := by
  decide

/-- If the first touched path fails to resolve, the commit unit of work
returns `ERROR` immediately, for every store state and step oracle. -/
theorem runCommit_head_unresolvable (fsR : String → Option String)
    (fsM : String → Option (Int × Nat)) (o : Nat → StepOutcome)
    (L : LedgerState) (db : DBState) (p : String) (rest : List String)
    (htouch : L.touched = p :: rest) (hres : fsR p = none) :
    (RunCommitTransaction fsR fsM o L db).1 = .ERROR := by
  simp [RunCommitTransaction, htouch, markAll, markOne, hres]

/-- C6 (amended): an unresolvable path at `Record` is scoped to that
single finding (no staged finding is added, the error message is set,
and a later `Record` for a resolvable path still succeeds), and an
unresolvable path in the query engine's per-path identity check is
scoped to that single path (a local "file not found" condition is
emitted and every enumerated path still contributes its events) — but an
unresolvable touched path during `Commit` is **not** scoped:
`MarkAsProcessed` returns `ERROR`, which aborts the entire commit,
leaving the store unchanged and `Commit` returning false. -/
theorem local_error_scope_spec :
    ∀ (fsR : String → Option String) (fsM : String → Option (Int × Nat)),
    (∀ (st : LedgerState) (p : String) (l c : Nat) (t m : String),
      lookupKey st.ftable p = none →
      (mkFileIdentification fsR fsM p).Valid = false →
      (RecordL fsR fsM st p l c t m).2 = false ∧
      (RecordL fsR fsM st p l c t m).1.reports = st.reports ∧
      (RecordL fsR fsM st p l c t m).1.errorMessage
        = "could not find file on disk: " ++ p) ∧
    (∀ (st : LedgerState) (q : String) (l c : Nat) (t m : String),
      (mkFileIdentification fsR fsM q).Valid = true →
      (RecordL fsR fsM st q l c t m).2 = true ∧
      (RecordL fsR fsM st q l c t m).1.reports.length = st.reports.length + 1) ∧
    (∀ (db : DBState) (cb : String → Nat → Nat → String → String → Bool)
       (p : String),
      (mkFileIdentification fsR fsM p).Valid = false →
      reportOnePath fsR fsM db cb p = ([.errNotFound p], false)) ∧
    (∀ (db : DBState) (cb : String → Nat → Nat → String → String → Bool)
       (p : String),
      p ∈ distinctPaths db → REvent.enumPath p ∈ (ReportRun fsR fsM db cb).1) ∧
    (∀ (o : Nat → Nat → StepOutcome) (env : Nat → AttemptOracle)
       (calls : List LCall) (db : DBState) (p : String) (rest : List String),
      (runCalls fsR fsM calls initLedger).touched = p :: rest →
      fsR p = none →
      CommitModel fsR fsM o env calls db = (false, db)) := by
  intro fsR fsM
  refine ⟨?_, ?_, ?_, ?_, ?_⟩
  · intro st p l c t m hlk hval
    simp [RecordL, ResolveL, resolveCore, hlk, hval]
  · intro st q l c t m hval
    cases hlk : lookupKey st.ftable q with
    | some fi => simp [RecordL, ResolveL, resolveCore, hlk]
    | none =>
      cases hlk2 : lookupKey st.ftable (mkFileIdentification fsR fsM q).Path with
      | some fi0 => simp [RecordL, ResolveL, resolveCore, hlk, hval, hlk2]
      | none => simp [RecordL, ResolveL, resolveCore, hlk, hval, hlk2]
  · intro db cb p hval
    simp [reportOnePath, hval]
  · intro db cb p hp
    rw [(reportRun_events fsR fsM db cb).1]
    rw [List.mem_flatMap]
    exact ⟨p, hp, List.mem_cons_self _ _⟩
  · intro o env calls db p rest htouch hres
    have hrun : ∀ (k : Nat) (s' : DBState),
        (((RunCommitTransaction fsR fsM (o k)
            (runCalls fsR fsM calls initLedger) s').1,
          (RunCommitTransaction fsR fsM (o k)
            (runCalls fsR fsM calls initLedger) s').2.db) :
            TransactionResult × DBState).1 = .ERROR := by
      intro k s'
      exact runCommit_head_unresolvable fsR fsM (o k) _ s' p rest htouch hres
    obtain ⟨h1, h2⟩ := transactGo_always_error
      (fun k s' => ((RunCommitTransaction fsR fsM (o k)
          (runCalls fsR fsM calls initLedger) s').1,
        (RunCommitTransaction fsR fsM (o k)
          (runCalls fsR fsM calls initLedger) s').2.db))
      env db hrun MaxRetries 0
    simp only [CommitModel, Transact]
    rw [h1, h2]
    rfl

/-- Witness for C6: the commit-abort clause applied at the concrete
batch whose second call touches the unresolvable path `"p"`. -/
theorem local_error_scope_witness :
    CommitModel fsR6 fsM6 (fun _ _ => .done) (fun _ => ⟨.done, .done, true⟩)
      [.record "q" 1 2 "t" "m", .mark "p"] emptyDB = (false, emptyDB) :=
  (local_error_scope_spec fsR6 fsM6).2.2.2.2 (fun _ _ => .done)
    (fun _ => ⟨.done, .done, true⟩) [.record "q" 1 2 "t" "m", .mark "p"]
    emptyDB "p" [] (by decide) (by decide)

/-! ## Claim C1: invariants of the `FTable` association list

`std::map` maps each key to one entry; the association-list model only
ever appends a binding for a key after checking the key is absent, so
bindings are functional (`FtFun`).  Every stored entry is also reachable
under its canonical path (`FtCanon`), and (when canonicalization is
idempotent) every binding's key resolves to its entry's canonical path,
whose metadata the entry carries (`FtRes`). -/

/-- Bindings are functional: two bindings with the same key carry the
same entry. -/
def FtFun (ft : List (String × FileIdent)) : Prop :=
  ∀ kv₁ ∈ ft, ∀ kv₂ ∈ ft, kv₁.1 = kv₂.1 → kv₁.2 = kv₂.2

/-- Every entry is also bound under its own canonical path. -/
def FtCanon (ft : List (String × FileIdent)) : Prop :=
  ∀ kv ∈ ft, (kv.2.Path, kv.2) ∈ ft

/-- Every binding's key resolves to its entry's canonical path, and the
entry carries that path's metadata. -/
def FtRes (fsR : String → Option String) (fsM : String → Option (Int × Nat))
    (ft : List (String × FileIdent)) : Prop :=
  ∀ kv ∈ ft, fsR kv.1 = some kv.2.Path ∧
    fsM kv.2.Path = some (kv.2.Mtime, kv.2.Size)

/-- Idempotent canonicalization: realpath output resolves to itself. -/
def ResolveIdem (fsR : String → Option String) : Prop :=
  ∀ p c, fsR p = some c → fsR c = some c

theorem lookupKey_mem {ft : List (String × FileIdent)} {k : String}
    {fi : FileIdent} (h : lookupKey ft k = some fi) : (k, fi) ∈ ft := by
  simp only [lookupKey, Option.map_eq_some'] at h
  obtain ⟨kv, hfind, hsnd⟩ := h
  have hmem := List.mem_of_find?_eq_some hfind
  have hkey := List.find?_some hfind
  simp only [beq_iff_eq] at hkey
  have : kv = (k, fi) := by
    cases kv with
    | mk a b =>
      simp only at hkey hsnd
      rw [hkey, hsnd]
  rw [← this]
  exact hmem

theorem lookupKey_none {ft : List (String × FileIdent)} {k : String}
    (h : lookupKey ft k = none) : ∀ kv ∈ ft, kv.1 ≠ k := by
  simp only [lookupKey, Option.map_eq_none'] at h
  intro kv hkv
  have := List.find?_eq_none.1 h kv hkv
  simpa using this

theorem mem_lookupKey {ft : List (String × FileIdent)} {k : String}
    {fi : FileIdent} (hfun : FtFun ft) (h : (k, fi) ∈ ft) :
    lookupKey ft k = some fi := by
  cases hfind : ft.find? (fun kv => kv.1 == k) with
  | none =>
    have := List.find?_eq_none.1 hfind (k, fi) h
    simp at this
  | some kv =>
    have hmem := List.mem_of_find?_eq_some hfind
    have hkey := List.find?_some hfind
    simp only [beq_iff_eq] at hkey
    have heq : kv.2 = fi := hfun kv hmem (k, fi) h (by simpa using hkey)
    simp [lookupKey, hfind, heq]

/-- `resolveCore` only appends bindings. -/
theorem resolveCore_sub (fsR : String → Option String)
    (fsM : String → Option (Int × Nat)) (ft : List (String × FileIdent))
    (p : String) :
    ∃ Δ, (resolveCore fsR fsM ft p).1 = ft ++ Δ := by
  unfold resolveCore
  dsimp only
  cases h : lookupKey ft p with
  | some fi => exact ⟨[], by simp⟩
  | none =>
    by_cases hv : (mkFileIdentification fsR fsM p).Valid = true
    · cases h2 : lookupKey ft (mkFileIdentification fsR fsM p).Path with
      | some fi0 => exact ⟨[(p, fi0)], by simp [hv]⟩
      | none =>
        exact ⟨[(p, mkFileIdentification fsR fsM p),
          ((mkFileIdentification fsR fsM p).Path, mkFileIdentification fsR fsM p)],
          by simp [hv]⟩
    · exact ⟨[], by simp [hv]⟩

/-- Exhaustive case analysis of `resolveCore`. -/
theorem resolveCore_cases (fsR : String → Option String)
    (fsM : String → Option (Int × Nat)) (ft : List (String × FileIdent))
    (p : String) :
    (∃ fi, lookupKey ft p = some fi ∧ resolveCore fsR fsM ft p = (ft, some fi, "")) ∨
    (lookupKey ft p = none ∧ (mkFileIdentification fsR fsM p).Valid = true ∧
      (∃ fi0, lookupKey ft (mkFileIdentification fsR fsM p).Path = some fi0 ∧
        resolveCore fsR fsM ft p = (ft ++ [(p, fi0)], some fi0, ""))) ∨
    (lookupKey ft p = none ∧ (mkFileIdentification fsR fsM p).Valid = true ∧
      lookupKey ft (mkFileIdentification fsR fsM p).Path = none ∧
      resolveCore fsR fsM ft p
        = (ft ++ [(p, mkFileIdentification fsR fsM p),
            ((mkFileIdentification fsR fsM p).Path, mkFileIdentification fsR fsM p)],
           some (mkFileIdentification fsR fsM p), "")) ∨
    (lookupKey ft p = none ∧ (mkFileIdentification fsR fsM p).Valid = false ∧
      resolveCore fsR fsM ft p = (ft, none, "could not find file on disk: " ++ p)) := by
  unfold resolveCore
  dsimp only
  cases h : lookupKey ft p with
  | some fi => exact Or.inl ⟨fi, rfl, rfl⟩
  | none =>
    by_cases hv : (mkFileIdentification fsR fsM p).Valid = true
    · cases h2 : lookupKey ft (mkFileIdentification fsR fsM p).Path with
      | some fi0 =>
        exact Or.inr (Or.inl ⟨rfl, hv, fi0, rfl, by simp [hv]⟩)
      | none =>
        exact Or.inr (Or.inr (Or.inl ⟨rfl, hv, rfl, by simp [hv]⟩))
    · have hv' : (mkFileIdentification fsR fsM p).Valid = false :=
        Bool.not_eq_true _ ▸ (by simpa using hv)
      exact Or.inr (Or.inr (Or.inr ⟨rfl, hv', by simp [hv']⟩))

theorem ftFun_append_one {ft : List (String × FileIdent)} {k : String}
    {fi : FileIdent} (hfun : FtFun ft) (hnew : ∀ kv ∈ ft, kv.1 ≠ k) :
    FtFun (ft ++ [(k, fi)]) := by
  intro kv₁ h₁ kv₂ h₂ hk
  rcases List.mem_append.1 h₁ with h₁ | h₁ <;>
    rcases List.mem_append.1 h₂ with h₂ | h₂
  · exact hfun kv₁ h₁ kv₂ h₂ hk
  · simp only [List.mem_singleton] at h₂
    subst h₂
    exact absurd hk (hnew kv₁ h₁)
  · simp only [List.mem_singleton] at h₁
    subst h₁
    exact absurd hk.symm (hnew kv₂ h₂)
  · simp only [List.mem_singleton] at h₁ h₂
    rw [h₁, h₂]

theorem ftFun_append_two {ft : List (String × FileIdent)} {k₁ k₂ : String}
    {fi : FileIdent} (hfun : FtFun ft) (hnew₁ : ∀ kv ∈ ft, kv.1 ≠ k₁)
    (hnew₂ : ∀ kv ∈ ft, kv.1 ≠ k₂) :
    FtFun (ft ++ [(k₁, fi), (k₂, fi)]) := by
  intro kv₁ h₁ kv₂ h₂ hk
  rcases List.mem_append.1 h₁ with h₁ | h₁ <;>
    rcases List.mem_append.1 h₂ with h₂ | h₂
  · exact hfun kv₁ h₁ kv₂ h₂ hk
  · rcases List.mem_cons.1 h₂ with h₂ | h₂
    · subst h₂; exact absurd hk (hnew₁ kv₁ h₁)
    · simp only [List.mem_singleton] at h₂
      subst h₂; exact absurd hk (hnew₂ kv₁ h₁)
  · rcases List.mem_cons.1 h₁ with h₁ | h₁
    · subst h₁; exact absurd hk.symm (hnew₁ kv₂ h₂)
    · simp only [List.mem_singleton] at h₁
      subst h₁; exact absurd hk.symm (hnew₂ kv₂ h₂)
  · rcases List.mem_cons.1 h₁ with h₁ | h₁ <;>
      rcases List.mem_cons.1 h₂ with h₂ | h₂ <;>
      (try simp only [List.mem_singleton] at h₁) <;>
      (try simp only [List.mem_singleton] at h₂) <;>
      subst h₁ <;> subst h₂ <;> rfl

theorem resolveCore_fun {fsR : String → Option String}
    {fsM : String → Option (Int × Nat)} {ft : List (String × FileIdent)}
    {p : String} (hfun : FtFun ft) :
    FtFun (resolveCore fsR fsM ft p).1 := by
  rcases resolveCore_cases fsR fsM ft p with
    ⟨fi, _, heq⟩ | ⟨hnone, _, fi0, _, heq⟩ | ⟨hnone, _, hnone2, heq⟩ | ⟨_, _, heq⟩
  · rw [heq]; exact hfun
  · rw [heq]
    exact ftFun_append_one hfun (lookupKey_none hnone)
  · rw [heq]
    exact ftFun_append_two hfun (lookupKey_none hnone) (lookupKey_none hnone2)
  · rw [heq]; exact hfun

theorem resolveCore_canon {fsR : String → Option String}
    {fsM : String → Option (Int × Nat)} {ft : List (String × FileIdent)}
    {p : String} (hcanon : FtCanon ft) :
    FtCanon (resolveCore fsR fsM ft p).1 := by
  rcases resolveCore_cases fsR fsM ft p with
    ⟨fi, _, heq⟩ | ⟨hnone, _, fi0, hfi0, heq⟩ | ⟨hnone, _, hnone2, heq⟩ | ⟨_, _, heq⟩
  · rw [heq]; exact hcanon
  · rw [heq]
    intro kv hkv
    rcases List.mem_append.1 hkv with h | h
    · exact List.mem_append.2 (Or.inl (hcanon kv h))
    · simp only [List.mem_singleton] at h
      subst h
      exact List.mem_append.2 (Or.inl
        (hcanon ((mkFileIdentification fsR fsM p).Path, fi0) (lookupKey_mem hfi0)))
  · rw [heq]
    intro kv hkv
    rcases List.mem_append.1 hkv with h | h
    · exact List.mem_append.2 (Or.inl (hcanon kv h))
    · rcases List.mem_cons.1 h with h | h
      · subst h
        exact List.mem_append.2 (Or.inr (by simp))
      · simp only [List.mem_singleton] at h
        subst h
        exact List.mem_append.2 (Or.inr (by simp))
  · rw [heq]; exact hcanon

/-- A valid `mkFileIdentification` value records its resolution: the
canonical path with that path's metadata. -/
theorem mkFileIdentification_valid {fsR : String → Option String}
    {fsM : String → Option (Int × Nat)} {p : String}
    (hv : (mkFileIdentification fsR fsM p).Valid = true) :
    fsR p = some (mkFileIdentification fsR fsM p).Path ∧
    fsM (mkFileIdentification fsR fsM p).Path
      = some ((mkFileIdentification fsR fsM p).Mtime,
              (mkFileIdentification fsR fsM p).Size) := by
  cases hR : fsR p with
  | none =>
    exfalso
    have hmk : mkFileIdentification fsR fsM p = ⟨"", 0, 0⟩ := by
      unfold mkFileIdentification; rw [hR]
    rw [hmk] at hv
    exact absurd hv (by decide)
  | some cp =>
    cases hM : fsM cp with
    | none =>
      exfalso
      have hmk : mkFileIdentification fsR fsM p = ⟨"", 0, 0⟩ := by
        unfold mkFileIdentification; rw [hR]; dsimp only; rw [hM]
      rw [hmk] at hv
      exact absurd hv (by decide)
    | some mz =>
      cases mz with
      | mk m z =>
        have hmk : mkFileIdentification fsR fsM p = ⟨cp, m, z⟩ := by
          unfold mkFileIdentification; rw [hR]; dsimp only; rw [hM]
        rw [hmk]
        exact ⟨rfl, hM⟩

theorem resolveCore_res {fsR : String → Option String}
    {fsM : String → Option (Int × Nat)} {ft : List (String × FileIdent)}
    {p : String} (hidem : ResolveIdem fsR) (hres : FtRes fsR fsM ft) :
    FtRes fsR fsM (resolveCore fsR fsM ft p).1 := by
  rcases resolveCore_cases fsR fsM ft p with
    ⟨fi, _, heq⟩ | ⟨hnone, hv, fi0, hfi0, heq⟩ | ⟨hnone, hv, hnone2, heq⟩ | ⟨_, _, heq⟩
  · rw [heq]; exact hres
  · rw [heq]
    obtain ⟨hRp, hMp⟩ := mkFileIdentification_valid hv
    obtain ⟨hR0, hM0⟩ := hres _ (lookupKey_mem hfi0)
    -- the entry found under the canonical path resolves to itself
    have hcp : fsR (mkFileIdentification fsR fsM p).Path
        = some (mkFileIdentification fsR fsM p).Path := hidem p _ hRp
    have hfi0path : fi0.Path = (mkFileIdentification fsR fsM p).Path := by
      have := hR0
      simp only at this
      rw [hcp] at this
      exact (Option.some.injEq _ _ ▸ this).symm
    intro kv hkv
    rcases List.mem_append.1 hkv with h | h
    · exact hres kv h
    · simp only [List.mem_singleton] at h
      subst h
      refine ⟨?_, (hres _ (lookupKey_mem hfi0)).2⟩
      simp only
      rw [hRp, hfi0path]
  · rw [heq]
    obtain ⟨hRp, hMp⟩ := mkFileIdentification_valid hv
    intro kv hkv
    rcases List.mem_append.1 hkv with h | h
    · exact hres kv h
    · rcases List.mem_cons.1 h with h | h
      · subst h
        exact ⟨hRp, hMp⟩
      · simp only [List.mem_singleton] at h
        subst h
        exact ⟨hidem p _ hRp, hMp⟩
  · rw [heq]; exact hres

theorem resolveCore_some_mem {fsR : String → Option String}
    {fsM : String → Option (Int × Nat)} {ft ft' : List (String × FileIdent)}
    {p msg : String} {fi : FileIdent}
    (h : resolveCore fsR fsM ft p = (ft', some fi, msg))
    (hcanon : FtCanon ft) : (fi.Path, fi) ∈ ft' := by
  rcases resolveCore_cases fsR fsM ft p with
    ⟨fi1, hlk, heq⟩ | ⟨_, _, fi0, hfi0, heq⟩ | ⟨_, _, _, heq⟩ | ⟨_, _, heq⟩ <;>
    rw [heq] at h <;>
    simp only [Prod.mk.injEq, Option.some.injEq] at h
  · obtain ⟨hft, hfi, _⟩ := h
    subst hft; subst hfi
    exact hcanon _ (lookupKey_mem hlk)
  · obtain ⟨hft, hfi, _⟩ := h
    subst hft; subst hfi
    exact List.mem_append.2 (Or.inl (hcanon _ (lookupKey_mem hfi0)))
  · obtain ⟨hft, hfi, _⟩ := h
    subst hft; subst hfi
    exact List.mem_append.2 (Or.inr (by simp))
  · exact absurd h.2.1 (by simp)

/-- When resolution succeeds and `fsR p = some abs`, the returned
entry's canonical path is `abs`. -/
theorem resolveCore_some_path {fsR : String → Option String}
    {fsM : String → Option (Int × Nat)} {ft ft' : List (String × FileIdent)}
    {p msg abs : String} {fi : FileIdent}
    (hidem : ResolveIdem fsR) (hres : FtRes fsR fsM ft)
    (h : resolveCore fsR fsM ft p = (ft', some fi, msg))
    (habs : fsR p = some abs) : fi.Path = abs := by
  rcases resolveCore_cases fsR fsM ft p with
    ⟨fi1, hlk, heq⟩ | ⟨_, hv, fi0, hfi0, heq⟩ | ⟨_, hv, _, heq⟩ | ⟨_, _, heq⟩ <;>
    rw [heq] at h <;>
    simp only [Prod.mk.injEq, Option.some.injEq] at h
  · have hfi : fi1 = fi := h.2.1
    have h1 := (hres _ (lookupKey_mem hlk)).1
    rw [habs] at h1
    have h2 : abs = fi1.Path := Option.some.injEq _ _ ▸ h1
    rw [← hfi, ← h2]
  · have hfi : fi0 = fi := h.2.1
    obtain ⟨hRp, _⟩ := mkFileIdentification_valid hv
    have hmkabs : (mkFileIdentification fsR fsM p).Path = abs := by
      rw [habs] at hRp
      exact (Option.some.injEq _ _ ▸ hRp).symm
    have hcp : fsR (mkFileIdentification fsR fsM p).Path
        = some (mkFileIdentification fsR fsM p).Path :=
      hidem p _ (mkFileIdentification_valid hv).1
    have h0 := (hres _ (lookupKey_mem hfi0)).1
    rw [hcp] at h0
    have h2 : (mkFileIdentification fsR fsM p).Path = fi0.Path :=
      Option.some.injEq _ _ ▸ h0
    rw [← hfi, ← h2, hmkabs]
  · have hfi : mkFileIdentification fsR fsM p = fi := h.2.1
    have hRp := (mkFileIdentification_valid hv).1
    rw [habs, hfi] at hRp
    exact (Option.some.injEq _ _ ▸ hRp).symm
  · exact absurd h.2.1 (by simp)

/-- Well-formedness of a ledger state: table invariants plus the fact
that every staged finding's canonical path has a primary binding. -/
def LedgerWF (fsR : String → Option String) (fsM : String → Option (Int × Nat))
    (st : LedgerState) : Prop :=
  FtFun st.ftable ∧ FtCanon st.ftable ∧ FtRes fsR fsM st.ftable ∧
  ∀ r ∈ st.reports, ∃ fi, fi.Path = r.canon ∧ (r.canon, fi) ∈ st.ftable

theorem ledgerWF_init (fsR : String → Option String)
    (fsM : String → Option (Int × Nat)) : LedgerWF fsR fsM initLedger := by
  refine ⟨?_, ?_, ?_, ?_⟩ <;> intro kv hkv <;> simp [initLedger] at hkv

theorem recordL_wf {fsR : String → Option String}
    {fsM : String → Option (Int × Nat)} {st : LedgerState} {p : String}
    {l c : Nat} {t m : String} (hidem : ResolveIdem fsR)
    (hwf : LedgerWF fsR fsM st) :
    LedgerWF fsR fsM (RecordL fsR fsM st p l c t m).1 := by
  obtain ⟨hfun, hcanon, hres, hrep⟩ := hwf
  obtain ⟨Δ, hΔ⟩ := resolveCore_sub fsR fsM st.ftable p
  have hfun' : FtFun (resolveCore fsR fsM st.ftable p).1 := resolveCore_fun hfun
  have hcanon' : FtCanon (resolveCore fsR fsM st.ftable p).1 :=
    resolveCore_canon hcanon
  have hres' : FtRes fsR fsM (resolveCore fsR fsM st.ftable p).1 :=
    resolveCore_res hidem hres
  unfold RecordL ResolveL
  rcases hrc : resolveCore fsR fsM st.ftable p with ⟨ft', fio, msg⟩
  cases fio with
  | none =>
    refine ⟨?_, ?_, ?_, ?_⟩ <;> simp only
    · rw [show ft' = (resolveCore fsR fsM st.ftable p).1 by rw [hrc]]; exact hfun'
    · rw [show ft' = (resolveCore fsR fsM st.ftable p).1 by rw [hrc]]; exact hcanon'
    · rw [show ft' = (resolveCore fsR fsM st.ftable p).1 by rw [hrc]]; exact hres'
    · intro r hr
      obtain ⟨fi, h1, h2⟩ := hrep r hr
      refine ⟨fi, h1, ?_⟩
      rw [show ft' = (resolveCore fsR fsM st.ftable p).1 by rw [hrc], hΔ]
      exact List.mem_append.2 (Or.inl h2)
  | some fi =>
    have hmem : (fi.Path, fi) ∈ ft' := by
      have := resolveCore_some_mem hrc hcanon
      exact this
    refine ⟨?_, ?_, ?_, ?_⟩ <;> simp only
    · rw [show ft' = (resolveCore fsR fsM st.ftable p).1 by rw [hrc]]; exact hfun'
    · rw [show ft' = (resolveCore fsR fsM st.ftable p).1 by rw [hrc]]; exact hcanon'
    · rw [show ft' = (resolveCore fsR fsM st.ftable p).1 by rw [hrc]]; exact hres'
    · intro r hr
      rcases List.mem_append.1 hr with hr | hr
      · obtain ⟨fi', h1, h2⟩ := hrep r hr
        refine ⟨fi', h1, ?_⟩
        rw [show ft' = (resolveCore fsR fsM st.ftable p).1 by rw [hrc], hΔ]
        exact List.mem_append.2 (Or.inl h2)
      · simp only [List.mem_singleton] at hr
        subst hr
        exact ⟨fi, rfl, hmem⟩

theorem runCalls_wf {fsR : String → Option String}
    {fsM : String → Option (Int × Nat)} (hidem : ResolveIdem fsR) :
    ∀ (calls : List LCall) (st : LedgerState), LedgerWF fsR fsM st →
    LedgerWF fsR fsM (runCalls fsR fsM calls st) := by
  intro calls
  induction calls with
  | nil => intro st h; exact h
  | cons call rest ih =>
    intro st h
    cases call with
    | record p l c t m =>
      exact ih _ (recordL_wf hidem h)
    | mark p =>
      refine ih _ ?_
      obtain ⟨h1, h2, h3, h4⟩ := h
      exact ⟨h1, h2, h3, h4⟩

/-- Table invariants carried through `RunCommitTransaction`. -/
def RunWF (fsR : String → Option String) (fsM : String → Option (Int × Nat))
    (st : RunSt) : Prop :=
  FtFun st.ftable ∧ FtCanon st.ftable ∧ FtRes fsR fsM st.ftable

theorem markOne_ok {fsR : String → Option String}
    {fsM : String → Option (Int × Nat)} {o : Nat → StepOutcome}
    {st st' : RunSt} {p : String} (hidem : ResolveIdem fsR)
    (h : markOne fsR fsM o st p = .ok st') (hwf : RunWF fsR fsM st) :
    st'.db = st.db ∧ st'.ids = st.ids ∧
    (∃ Δ, st'.ftable = st.ftable ++ Δ) ∧ RunWF fsR fsM st' ∧
    ∃ abs, fsR p = some abs ∧
      ((∃ fr ∈ st.db.files, fr.path = abs) →
        ∃ fi, (abs, fi) ∈ st'.ftable ∧ fi.Path = abs ∧
          fsM abs = some (fi.Mtime, fi.Size)) := by
  obtain ⟨hfun, hcanon, hres⟩ := hwf
  unfold markOne at h
  cases hresR : fsR p with
  | none => rw [hresR] at h; exact absurd h (by simp)
  | some abs =>
    rw [hresR] at h
    simp only [takeStep] at h
    cases ho1 : o st.ctr with
    | busy => rw [ho1] at h; exact absurd h (by simp [stepClass])
    | fail => rw [ho1] at h; exact absurd h (by simp [stepClass])
    | done =>
      rw [ho1] at h
      simp only [ne_eq, not_true_eq_false, if_false, reduceIte] at h
      cases ho2 : o (st.ctr + 1) with
      | busy => rw [ho2] at h; exact absurd h (by simp [stepClass])
      | fail => rw [ho2] at h; exact absurd h (by simp [stepClass])
      | done =>
        rw [ho2] at h
        simp only [ne_eq, not_true_eq_false, if_false, reduceIte] at h
        by_cases hany : (st.db.files.any (fun fr => fr.path == abs)) = true
        · rw [if_pos hany] at h
          rcases hrc : resolveCore fsR fsM st.ftable p with ⟨ft', fio, msg⟩
          rw [hrc] at h
          cases fio with
          | none => exact absurd h (by simp)
          | some fi' =>
            simp only [Except.ok.injEq] at h
            subst h
            obtain ⟨Δ, hΔ⟩ := resolveCore_sub fsR fsM st.ftable p
            rw [hrc] at hΔ
            simp only at hΔ
            have hpath : fi'.Path = abs :=
              resolveCore_some_path hidem hres hrc hresR
            have hmem : (fi'.Path, fi') ∈ ft' := resolveCore_some_mem hrc hcanon
            have hfun' : FtFun ft' := by
              have := @resolveCore_fun fsR fsM st.ftable p hfun
              rw [hrc] at this; exact this
            have hcanon' : FtCanon ft' := by
              have := @resolveCore_canon fsR fsM st.ftable p hcanon
              rw [hrc] at this; exact this
            have hres' : FtRes fsR fsM ft' := by
              have := @resolveCore_res fsR fsM st.ftable p hidem hres
              rw [hrc] at this; exact this
            refine ⟨rfl, rfl, ⟨Δ, by simpa using hΔ⟩, ⟨hfun', hcanon', hres'⟩,
              abs, rfl, ?_⟩
            intro _
            refine ⟨fi', ?_, hpath, ?_⟩
            · rw [← hpath]; exact hmem
            · have := (hres' _ hmem).2
              rw [hpath] at this
              exact this
        · rw [if_neg hany] at h
          simp only [Except.ok.injEq] at h
          subst h
          refine ⟨rfl, rfl, ⟨[], by simp⟩, ⟨hfun, hcanon, hres⟩, abs, rfl, ?_⟩
          intro hcontra
          exfalso
          apply hany
          rw [List.any_eq_true]
          obtain ⟨fr, hfr, hfrp⟩ := hcontra
          exact ⟨fr, hfr, by simp [hfrp]⟩

theorem markAll_ok {fsR : String → Option String}
    {fsM : String → Option (Int × Nat)} {o : Nat → StepOutcome}
    (hidem : ResolveIdem fsR) :
    ∀ (ps : List String) (st st' : RunSt),
    markAll fsR fsM o ps st = .ok st' → RunWF fsR fsM st →
    st'.db = st.db ∧ st'.ids = st.ids ∧
    (∃ Δ, st'.ftable = st.ftable ++ Δ) ∧ RunWF fsR fsM st' ∧
    ∀ p ∈ ps, ∃ abs, fsR p = some abs ∧
      ((∃ fr ∈ st.db.files, fr.path = abs) →
        ∃ fi, (abs, fi) ∈ st'.ftable ∧ fi.Path = abs ∧
          fsM abs = some (fi.Mtime, fi.Size)) := by
  intro ps
  induction ps with
  | nil =>
    intro st st' h hwf
    simp only [markAll, Except.ok.injEq] at h
    subst h
    exact ⟨rfl, rfl, ⟨[], by simp⟩, hwf, by simp⟩
  | cons p rest ih =>
    intro st st' h hwf
    simp only [markAll] at h
    cases hone : markOne fsR fsM o st p with
    | error e => rw [hone] at h; exact absurd h (by simp)
    | ok st₁ =>
      rw [hone] at h
      simp only at h
      obtain ⟨hdb₁, hids₁, ⟨Δ₁, hΔ₁⟩, hwf₁, abs₁, habs₁, htouched₁⟩ :=
        markOne_ok hidem hone hwf
      obtain ⟨hdb₂, hids₂, ⟨Δ₂, hΔ₂⟩, hwf₂, hrest⟩ := ih st₁ st' h hwf₁
      refine ⟨hdb₂.trans hdb₁, hids₂.trans hids₁,
        ⟨Δ₁ ++ Δ₂, by rw [hΔ₂, hΔ₁, List.append_assoc]⟩, hwf₂, ?_⟩
      intro q hq
      rcases List.mem_cons.1 hq with hq | hq
      · subst hq
        refine ⟨abs₁, habs₁, ?_⟩
        intro hprior
        obtain ⟨fi, h1, h2, h3⟩ := htouched₁ hprior
        refine ⟨fi, ?_, h2, h3⟩
        rw [hΔ₂]
        exact List.mem_append.2 (Or.inl h1)
      · obtain ⟨abs, habs, himpl⟩ := hrest q hq
        refine ⟨abs, habs, ?_⟩
        intro hprior
        apply himpl
        rw [hdb₁]
        exact hprior

theorem mem_primaryCanons {ft : List (String × FileIdent)} {c : String}
    {fi : FileIdent} (hfun : FtFun ft) (hmem : (c, fi) ∈ ft)
    (hpath : fi.Path = c) :
    c ∈ primaryCanons ft ∧ identAt ft c = fi := by
  constructor
  · rw [primaryCanons, mem_sortDedup, List.mem_map]
    refine ⟨(c, fi), ?_, rfl⟩
    rw [List.mem_filter]
    exact ⟨hmem, by simp [hpath]⟩
  · rw [identAt, mem_lookupKey hfun hmem]
    rfl

theorem idOf_eq : ∀ (ids : List (String × Nat)) (c : String) (fid : Nat),
    (c, fid) ∈ ids → (ids.map Prod.fst).Nodup → idOf ids c = fid := by
  intro ids
  induction ids with
  | nil => intro c fid h _; simp at h
  | cons kv rest ih =>
    intro c fid h hnodup
    rcases List.mem_cons.1 h with h | h
    · subst h
      simp [idOf]
    · have hkey : kv.1 ≠ c := by
        intro hk
        have : c ∈ rest.map Prod.fst := List.mem_map.2 ⟨(c, fid), h, rfl⟩
        rw [List.map_cons, List.nodup_cons] at hnodup
        exact hnodup.1 (hk ▸ this)
      have := ih c fid h (by
        rw [List.map_cons, List.nodup_cons] at hnodup
        exact hnodup.2)
      simp only [idOf] at this ⊢
      rw [List.find?_cons_of_neg _ (by simpa using hkey)]
      exact this

theorem insertFiles_ok {o : Nat → StepOutcome} :
    ∀ (cs : List String) (st st' : RunSt),
    insertFiles o cs st = .ok st' →
    st'.ftable = st.ftable ∧
    st'.db.reports = st.db.reports ∧
    st'.db.nextRowid = st.db.nextRowid ∧
    (∃ rows, st'.db.files = st.db.files ++ rows) ∧
    (∃ newIds, st'.ids = st.ids ++ newIds ∧ newIds.map Prod.fst = cs ∧
      (∀ kv ∈ newIds, st.db.nextFileId ≤ kv.2) ∧
      (∀ kv ∈ newIds,
        FileRow.mk kv.2 (identAt st.ftable kv.1).Path
          (identAt st.ftable kv.1).Mtime (identAt st.ftable kv.1).Size
          ∈ st'.db.files)) := by
  intro cs
  induction cs with
  | nil =>
    intro st st' h
    simp only [insertFiles, Except.ok.injEq] at h
    subst h
    exact ⟨rfl, rfl, rfl, ⟨[], by simp⟩, ⟨[], by simp⟩⟩
  | cons c rest ih =>
    intro st st' h
    simp only [insertFiles, takeStep] at h
    cases ho : o st.ctr with
    | busy => rw [ho] at h; exact absurd h (by simp [stepClass])
    | fail => rw [ho] at h; exact absurd h (by simp [stepClass])
    | done =>
      rw [ho] at h
      simp only [ne_eq, not_true_eq_false, if_false, reduceIte] at h
      obtain ⟨hft, hrep, hrow, ⟨rows, hrows⟩, newIds, hids, hkeys, hfresh, hmem⟩ :=
        ih _ st' h
      simp only at hft hrep hrow hrows hids
      refine ⟨hft, hrep, hrow, ?_, ?_⟩
      · exact ⟨⟨st.db.nextFileId, (identAt st.ftable c).Path,
          (identAt st.ftable c).Mtime, (identAt st.ftable c).Size⟩ :: rows,
          by rw [hrows]; simp⟩
      · refine ⟨(c, st.db.nextFileId) :: newIds, ?_, ?_, ?_, ?_⟩
        · rw [hids]; simp
        · simp only [List.map_cons, hkeys]
        · intro kv hkv
          rcases List.mem_cons.1 hkv with hkv | hkv
          · subst hkv; simp
          · have := hfresh kv hkv
            simp only at this
            omega
        · intro kv hkv
          rcases List.mem_cons.1 hkv with hkv | hkv
          · subst hkv
            simp only
            rw [hrows]
            simp
          · have := hmem kv hkv
            simp only at this
            exact this

theorem insertReports_ok {o : Nat → StepOutcome} :
    ∀ (rs : List StagedReport) (st st' : RunSt),
    insertReports o rs st = .ok st' →
    st'.db.files = st.db.files ∧ st'.ids = st.ids ∧
    (∃ tail, st'.db.reports = st.db.reports ++ tail) ∧
    ∀ r ∈ rs, ∃ rr ∈ st'.db.reports, rr.file = idOf st.ids r.canon ∧
      rr.line = r.line ∧ rr.column = r.column ∧ rr.tool = r.tool ∧
      rr.message = r.message := by
  intro rs
  induction rs with
  | nil =>
    intro st st' h
    simp only [insertReports, Except.ok.injEq] at h
    subst h
    exact ⟨rfl, rfl, ⟨[], by simp⟩, by simp⟩
  | cons r rest ih =>
    intro st st' h
    simp only [insertReports, takeStep] at h
    cases ho : o st.ctr with
    | busy => rw [ho] at h; exact absurd h (by simp [stepClass])
    | fail => rw [ho] at h; exact absurd h (by simp [stepClass])
    | done =>
      rw [ho] at h
      simp only [ne_eq, not_true_eq_false, if_false, reduceIte] at h
      obtain ⟨hfiles, hids, ⟨tail, htail⟩, hall⟩ := ih _ st' h
      simp only at hfiles hids htail hall
      refine ⟨hfiles, hids, ?_, ?_⟩
      · exact ⟨⟨st.db.nextRowid, idOf st.ids r.canon, r.line, r.column,
          r.tool, r.message⟩ :: tail, by rw [htail]; simp⟩
      · intro q hq
        rcases List.mem_cons.1 hq with hq | hq
        · subst hq
          refine ⟨⟨st.db.nextRowid, idOf st.ids q.canon, q.line, q.column,
            q.tool, q.message⟩, ?_, rfl, rfl, rfl, rfl, rfl⟩
          rw [htail]
          simp
        · exact hall q hq

theorem stepClass_ne_commit (r : StepOutcome) : stepClass r ≠ .COMMIT := by
  cases r <;> simp [stepClass]

theorem markOne_error {fsR : String → Option String}
    {fsM : String → Option (Int × Nat)} {o : Nat → StepOutcome}
    {st : RunSt} {p : String} {e : TransactionResult × RunSt}
    (h : markOne fsR fsM o st p = .error e) : e.1 ≠ .COMMIT := by
  unfold markOne at h
  cases hresR : fsR p with
  | none =>
    rw [hresR] at h
    simp only [Except.error.injEq] at h
    rw [← h]
    simp
  | some abs =>
    rw [hresR] at h
    simp only [takeStep] at h
    cases ho1 : o st.ctr with
    | busy =>
      rw [ho1] at h
      simp only [ne_eq, reduceCtorEq, not_false_eq_true, if_true,
        Except.error.injEq] at h
      intro hc; rw [← h] at hc; simp [stepClass] at hc
    | fail =>
      rw [ho1] at h
      simp only [ne_eq, reduceCtorEq, not_false_eq_true, if_true,
        Except.error.injEq] at h
      intro hc; rw [← h] at hc; simp [stepClass] at hc
    | done =>
      rw [ho1] at h
      simp only [ne_eq, not_true_eq_false, if_false, reduceIte] at h
      cases ho2 : o (st.ctr + 1) with
      | busy =>
        rw [ho2] at h
        simp only [ne_eq, reduceCtorEq, not_false_eq_true, if_true,
          Except.error.injEq] at h
        intro hc; rw [← h] at hc; simp [stepClass] at hc
      | fail =>
        rw [ho2] at h
        simp only [ne_eq, reduceCtorEq, not_false_eq_true, if_true,
          Except.error.injEq] at h
        intro hc; rw [← h] at hc; simp [stepClass] at hc
      | done =>
        rw [ho2] at h
        simp only [ne_eq, not_true_eq_false, if_false, reduceIte] at h
        split at h
        · rcases hrc : resolveCore fsR fsM st.ftable p with ⟨ft', fio, msg⟩
          rw [hrc] at h
          cases fio with
          | none =>
            simp only [Except.error.injEq] at h
            rw [← h]
            simp
          | some fi' => exact absurd h (by simp)
        · exact absurd h (by simp)

theorem markAll_error {fsR : String → Option String}
    {fsM : String → Option (Int × Nat)} {o : Nat → StepOutcome} :
    ∀ {ps : List String} {st : RunSt} {e : TransactionResult × RunSt},
    markAll fsR fsM o ps st = .error e → e.1 ≠ .COMMIT := by
  intro ps
  induction ps with
  | nil => intro st e h; simp [markAll] at h
  | cons p rest ih =>
    intro st e h
    simp only [markAll] at h
    cases hone : markOne fsR fsM o st p with
    | error e' =>
      rw [hone] at h
      simp only [Except.error.injEq] at h
      rw [← h]
      exact markOne_error hone
    | ok st₁ =>
      rw [hone] at h
      exact ih h

theorem insertFiles_error {o : Nat → StepOutcome} :
    ∀ {cs : List String} {st : RunSt} {e : TransactionResult × RunSt},
    insertFiles o cs st = .error e → e.1 ≠ .COMMIT := by
  intro cs
  induction cs with
  | nil => intro st e h; simp [insertFiles] at h
  | cons c rest ih =>
    intro st e h
    simp only [insertFiles, takeStep] at h
    cases ho : o st.ctr with
    | busy =>
      rw [ho] at h
      simp only [ne_eq, reduceCtorEq, not_false_eq_true, if_true,
        Except.error.injEq] at h
      intro hc; rw [← h] at hc; simp [stepClass] at hc
    | fail =>
      rw [ho] at h
      simp only [ne_eq, reduceCtorEq, not_false_eq_true, if_true,
        Except.error.injEq] at h
      intro hc; rw [← h] at hc; simp [stepClass] at hc
    | done =>
      rw [ho] at h
      simp only [ne_eq, not_true_eq_false, if_false, reduceIte] at h
      exact ih h

theorem insertReports_error {o : Nat → StepOutcome} :
    ∀ {rs : List StagedReport} {st : RunSt} {e : TransactionResult × RunSt},
    insertReports o rs st = .error e → e.1 ≠ .COMMIT := by
  intro rs
  induction rs with
  | nil => intro st e h; simp [insertReports] at h
  | cons r rest ih =>
    intro st e h
    simp only [insertReports, takeStep] at h
    cases ho : o st.ctr with
    | busy =>
      rw [ho] at h
      simp only [ne_eq, reduceCtorEq, not_false_eq_true, if_true,
        Except.error.injEq] at h
      intro hc; rw [← h] at hc; simp [stepClass] at hc
    | fail =>
      rw [ho] at h
      simp only [ne_eq, reduceCtorEq, not_false_eq_true, if_true,
        Except.error.injEq] at h
      intro hc; rw [← h] at hc; simp [stepClass] at hc
    | done =>
      rw [ho] at h
      simp only [ne_eq, not_true_eq_false, if_false, reduceIte] at h
      exact ih h

/-- When `RunCommitTransaction` returns `COMMIT`, every staged finding
has a file row (carrying its canonical path's current metadata) and a
report row bound to it, and every touched path resolved; touched paths
with a prior row got a fresh masking row carrying the current
fingerprint. -/
theorem runCommit_commit {fsR : String → Option String}
    {fsM : String → Option (Int × Nat)} {o : Nat → StepOutcome}
    {L : LedgerState} {db : DBState} {st3 : RunSt}
    (hidem : ResolveIdem fsR)
    (h : RunCommitTransaction fsR fsM o L db = (.COMMIT, st3))
    (hwf : LedgerWF fsR fsM L) :
    (∀ r ∈ L.reports, ∃ fid m z, fsM r.canon = some (m, z) ∧
      FileRow.mk fid r.canon m z ∈ st3.db.files ∧
      ∃ rr ∈ st3.db.reports, rr.file = fid ∧ rr.line = r.line ∧
        rr.column = r.column ∧ rr.tool = r.tool ∧ rr.message = r.message) ∧
    (∀ p ∈ L.touched, ∃ abs, fsR p = some abs ∧
      ((∃ fr ∈ db.files, fr.path = abs) →
        ∃ fid m z, fsM abs = some (m, z) ∧
          FileRow.mk fid abs m z ∈ st3.db.files ∧ db.nextFileId ≤ fid)) := by
  obtain ⟨hfunL, hcanonL, hresL, hrepL⟩ := hwf
  unfold RunCommitTransaction at h
  dsimp only at h
  cases hmark : markAll fsR fsM o L.touched ⟨db, L.ftable, [], L.errorMessage, 0⟩ with
  | error e =>
    rw [hmark] at h
    dsimp only at h
    exact absurd (show e.1 = TransactionResult.COMMIT by rw [h]) (markAll_error hmark)
  | ok st1 =>
    rw [hmark] at h
    simp only [takeStep] at h
    cases hp1 : o st1.ctr with
    | busy =>
      rw [hp1] at h
      simp only [ne_eq, reduceCtorEq, not_false_eq_true, if_true] at h
      exact absurd (congrArg Prod.fst h.symm) (by simp [stepClass])
    | fail =>
      rw [hp1] at h
      simp only [ne_eq, reduceCtorEq, not_false_eq_true, if_true] at h
      exact absurd (congrArg Prod.fst h.symm) (by simp [stepClass])
    | done =>
      rw [hp1] at h
      simp only [ne_eq, not_true_eq_false, if_false, reduceIte] at h
      cases hif : insertFiles o
          (primaryCanons ({st1 with ctr := st1.ctr + 1} : RunSt).ftable)
          {st1 with ctr := st1.ctr + 1} with
      | error e =>
        rw [hif] at h
        dsimp only at h
        exact absurd (show e.1 = TransactionResult.COMMIT by rw [h]) (insertFiles_error hif)
      | ok st2 =>
        rw [hif] at h
        simp only [takeStep] at h
        cases hp2 : o st2.ctr with
        | busy =>
          rw [hp2] at h
          simp only [ne_eq, reduceCtorEq, not_false_eq_true, if_true] at h
          exact absurd (congrArg Prod.fst h.symm) (by simp [stepClass])
        | fail =>
          rw [hp2] at h
          simp only [ne_eq, reduceCtorEq, not_false_eq_true, if_true] at h
          exact absurd (congrArg Prod.fst h.symm) (by simp [stepClass])
        | done =>
          rw [hp2] at h
          simp only [ne_eq, not_true_eq_false, if_false, reduceIte] at h
          cases hir : insertReports o L.reports ({st2 with ctr := st2.ctr + 1} : RunSt) with
          | error e =>
            rw [hir] at h
            dsimp only at h
            exact absurd (show e.1 = TransactionResult.COMMIT by rw [h]) (insertReports_error hir)
          | ok st3' =>
            rw [hir] at h
            simp only [Prod.mk.injEq, true_and] at h
            have hst3 : st3' = st3 := h
            subst hst3
            -- collect the facts of each phase
            obtain ⟨hdb1, hids1, ⟨Δ, hΔ⟩, ⟨hfun1, hcanon1, hres1⟩, htouch⟩ :=
              markAll_ok hidem L.touched _ st1 hmark ⟨hfunL, hcanonL, hresL⟩
            simp only at hdb1 hids1 hΔ htouch
            obtain ⟨hft2, hrep2, _, ⟨rows, hrows⟩, newIds, hids2, hkeys2, hfresh2, hmem2⟩ :=
              insertFiles_ok _ _ st2 hif
            simp only at hft2 hrep2 hrows hids2 hfresh2 hmem2
            obtain ⟨hfiles3, hids3, ⟨tail, htail⟩, hall3⟩ :=
              insertReports_ok L.reports _ st3' hir
            simp only at hfiles3 hids3 htail hall3
            have hnodupKeys : (newIds.map Prod.fst).Nodup := by
              rw [hkeys2]
              exact sortDedup_nodup _
            -- membership of a primary canonical path yields its row and id
            have hrowOf : ∀ (c : String) (fi : FileIdent),
                (c, fi) ∈ st1.ftable → fi.Path = c →
                ∃ fid, idOf newIds c = fid ∧ st1.db.nextFileId ≤ fid ∧
                  FileRow.mk fid c fi.Mtime fi.Size ∈ st3'.db.files := by
              intro c fi hmemft hpath
              obtain ⟨hcin, hident⟩ := mem_primaryCanons hfun1 hmemft hpath
              have : c ∈ newIds.map Prod.fst := by rw [hkeys2]; exact hcin
              obtain ⟨kv, hkv, hkvc⟩ := List.mem_map.1 this
              have hkvpair : kv = (c, kv.2) := by
                cases kv with
                | mk a b => simp only at hkvc; rw [hkvc]
              refine ⟨kv.2, idOf_eq _ _ _ (hkvpair ▸ hkv) hnodupKeys, ?_, ?_⟩
              · exact hfresh2 kv hkv
              · have := hmem2 kv hkv
                rw [hkvc, hident] at this
                rw [hfiles3, ← hpath]
                exact this
            constructor
            · -- staged findings
              intro r hr
              obtain ⟨fi, hfiPath, hfiMem⟩ := hrepL r hr
              have hmem1 : (r.canon, fi) ∈ st1.ftable := by
                rw [hΔ]
                exact List.mem_append.2 (Or.inl hfiMem)
              obtain ⟨fid, hidOf, _, hrow⟩ := hrowOf r.canon fi hmem1 hfiPath
              obtain ⟨hres1R, hres1M⟩ := hres1 _ hmem1
              rw [hfiPath] at hres1M
              obtain ⟨rr, hrrMem, hrrFile, hrrRest⟩ := hall3 r hr
              refine ⟨fid, fi.Mtime, fi.Size, hres1M, hrow, rr, hrrMem, ?_, hrrRest⟩
              rw [hrrFile, hids2, hids1]
              simpa using hidOf
            · -- touched paths
              intro p hp
              obtain ⟨abs, habs, himpl⟩ := htouch p hp
              refine ⟨abs, habs, ?_⟩
              intro hprior
              obtain ⟨fi, hfiMem, hfiPath, hfiM⟩ := himpl (by
                obtain ⟨fr, h1, h2⟩ := hprior
                exact ⟨fr, h1, h2⟩)
              obtain ⟨fid, _, hfresh, hrow⟩ := hrowOf abs fi hfiMem hfiPath
              refine ⟨fid, fi.Mtime, fi.Size, hfiM, hrow, ?_⟩
              rw [hdb1] at hfresh
              exact hfresh

/-- C1: every `Commit` call is all-or-nothing.  If `Commit` returns
false, the visible store equals the store before the call (no staged
finding or touched-file marker is visible).  If `Commit` returns true,
every staged finding is queryable — a file row for its canonical path
carrying that path's captured metadata exists, and a report row bound to
that row's id holds the finding — and every touched path resolved, with
a fresh masking row (id at least the old high-water mark, carrying the
current fingerprint) present for every touched path that already had a
row.  Canonicalization is assumed idempotent (realpath output resolves
to itself). -/
theorem commit_atomicity :
    ∀ (fsR : String → Option String) (fsM : String → Option (Int × Nat))
      (o : Nat → Nat → StepOutcome) (env : Nat → AttemptOracle)
      (calls : List LCall) (db : DBState),
    ResolveIdem fsR →
    ((CommitModel fsR fsM o env calls db).1 = false →
      (CommitModel fsR fsM o env calls db).2 = db) ∧
    ((CommitModel fsR fsM o env calls db).1 = true →
      (∀ r ∈ (runCalls fsR fsM calls initLedger).reports, ∃ fid m z,
        fsM r.canon = some (m, z) ∧
        FileRow.mk fid r.canon m z ∈ (CommitModel fsR fsM o env calls db).2.files ∧
        ∃ rr ∈ (CommitModel fsR fsM o env calls db).2.reports, rr.file = fid ∧
          rr.line = r.line ∧ rr.column = r.column ∧ rr.tool = r.tool ∧
          rr.message = r.message) ∧
      (∀ p ∈ (runCalls fsR fsM calls initLedger).touched, ∃ abs,
        fsR p = some abs ∧
        ((∃ fr ∈ db.files, fr.path = abs) →
          ∃ fid m z, fsM abs = some (m, z) ∧
            FileRow.mk fid abs m z ∈ (CommitModel fsR fsM o env calls db).2.files ∧
            db.nextFileId ≤ fid))) := by
  intro fsR fsM o env calls db hidem
  have hwfL : LedgerWF fsR fsM (runCalls fsR fsM calls initLedger) :=
    runCalls_wf hidem calls initLedger (ledgerWF_init fsR fsM)
  have hCM : CommitModel fsR fsM o env calls db
      = ((Transact (fun k s =>
            ((RunCommitTransaction fsR fsM (o k)
                (runCalls fsR fsM calls initLedger) s).1,
             (RunCommitTransaction fsR fsM (o k)
                (runCalls fsR fsM calls initLedger) s).2.db))
          env db).result == .COMMIT,
         (Transact (fun k s =>
            ((RunCommitTransaction fsR fsM (o k)
                (runCalls fsR fsM calls initLedger) s).1,
             (RunCommitTransaction fsR fsM (o k)
                (runCalls fsR fsM calls initLedger) s).2.db))
          env db).state) := rfl
  constructor
  · intro hfalse
    rw [hCM] at hfalse ⊢
    simp only [Transact] at hfalse ⊢
    apply transactGo_state
    intro hc
    rw [hc] at hfalse
    simp at hfalse
  · intro htrue
    rw [hCM] at htrue
    simp only [Transact, beq_iff_eq] at htrue
    obtain ⟨k, hk⟩ := transactGo_commit
      (fun k s =>
        ((RunCommitTransaction fsR fsM (o k)
            (runCalls fsR fsM calls initLedger) s).1,
         (RunCommitTransaction fsR fsM (o k)
            (runCalls fsR fsM calls initLedger) s).2.db))
      env db MaxRetries 0 htrue
    simp only [Prod.mk.injEq] at hk
    obtain ⟨hk1, hk2⟩ := hk
    have hRCT : RunCommitTransaction fsR fsM (o k)
        (runCalls fsR fsM calls initLedger) db
        = (.COMMIT, (RunCommitTransaction fsR fsM (o k)
            (runCalls fsR fsM calls initLedger) db).2) := by
      rw [← hk1]
    obtain ⟨hfind, htouch⟩ := runCommit_commit hidem hRCT hwfL
    rw [hCM]
    simp only
    constructor
    · intro r hr
      obtain ⟨fid, m, z, h1, h2, rr, h3, h4⟩ := hfind r hr
      exact ⟨fid, m, z, h1, hk2 ▸ h2, rr, hk2 ▸ h3, h4⟩
    · intro p hp
      obtain ⟨abs, h1, h2⟩ := htouch p hp
      refine ⟨abs, h1, ?_⟩
      intro hprior
      obtain ⟨fid, m, z, h3, h4, h5⟩ := h2 hprior
      exact ⟨fid, m, z, h3, hk2 ▸ h4, h5⟩

/-- Idempotent resolver oracle for the C1 witness: `"q"` and `"/q"` both
canonicalize to `"/q"`. -/
def fsRW : String → Option String :=
  fun p => if p = "q" ∨ p = "/q" then some "/q" else none

/-- Metadata oracle for the C1 witness. -/
def fsMW : String → Option (Int × Nat) :=
  fun p => if p = "/q" then some ((7 : Int), (9 : Nat)) else none

theorem fsRW_idem : ResolveIdem fsRW := by
  intro p c h
  unfold fsRW at h ⊢
  by_cases hp : p = "q" ∨ p = "/q"
  · rw [if_pos hp] at h
    have : c = "/q" := by injection h with h'; exact h'.symm
    subst this
    simp
  · rw [if_neg hp] at h
    exact absurd h (by simp)

/-- Witness for C1: the success clause applied to a concrete committed
batch — the staged finding for `"q"` is stored under its canonical path
`"/q"` with the captured metadata and is referenced by a report row. -/
theorem commit_atomicity_witness :
    ∃ fid m z, fsMW "/q" = some (m, z) ∧
      FileRow.mk fid "/q" m z
        ∈ (CommitModel fsRW fsMW (fun _ _ => .done)
            (fun _ => ⟨.done, .done, true⟩)
            [.record "q" 1 2 "t" "m"] emptyDB).2.files ∧
      ∃ rr ∈ (CommitModel fsRW fsMW (fun _ _ => .done)
            (fun _ => ⟨.done, .done, true⟩)
            [.record "q" 1 2 "t" "m"] emptyDB).2.reports,
        rr.file = fid ∧ rr.line = 1 ∧ rr.column = 2 ∧ rr.tool = "t" ∧
        rr.message = "m" :=
  ((commit_atomicity fsRW fsMW (fun _ _ => .done)
      (fun _ => ⟨.done, .done, true⟩) [.record "q" 1 2 "t" "m"] emptyDB
      fsRW_idem).2 (by decide)).1 ⟨"/q", 1, 2, "t", "m"⟩ (by decide)
